import Mathlib

/-!
# Box-blur kernels of `get_started_with_dpcpp`

A shallow embedding of the pixel/image classes and of the three `blur_image`
kernels (`01_image_blur_openmp.cpp`, `02_image_blur_usm.cpp`,
`03_image_blur_buffers.cpp`), and of the vector addition of
`05_vector_add_buffers.cpp`.

Conventions of the embedding:

* a `byte` and an `unsigned int` are natural numbers; narrowing casts and
  wrapping arithmetic are written with an explicit modulus;
* `size_t` arithmetic is arithmetic modulo `2 ^ 64`;
* a byte buffer is a `List Nat`; a read or write outside the buffer has no
  defined result in C++ and is `none` here.
-/

namespace Blur

/-! ## Machine arithmetic -/

/-- Number of values of a `size_t` (64-bit). -/
def SIZE_MOD : Nat := 2 ^ 64

/-- Number of values of an `unsigned int` (32-bit). -/
def UINT_MOD : Nat := 2 ^ 32

/-- The narrowing cast `static_cast<byte>(n)`. -/
def toByte (n : Nat) : Nat := n % 256

/-- The call `std::clamp(v, lo, hi)` (also `sycl::clamp` on scalars):
`v < lo ? lo : (hi < v ? hi : v)`. -/
def clamp (v lo hi : Nat) : Nat :=
  if v < lo then lo else if hi < v then hi else v

/-- The call `sycl::clamp<long>(v, lo, hi)` on signed 64-bit values. -/
def clampLong (v lo hi : Int) : Int :=
  if v < lo then lo else if hi < v then hi else v

/-- The sum `i + x` of a `size_t` and an `int`: the `int` is converted to
`size_t` and the addition wraps modulo `2 ^ 64`. -/
def addSizeInt (i : Nat) (x : Int) : Nat :=
  (((i : Int) + x) % (SIZE_MOD : Int)).toNat

/-- Conversion of a `size_t` bit pattern to `long` (two's complement). -/
def toLong (n : Nat) : Int :=
  if n % SIZE_MOD < 2 ^ 63 then ((n % SIZE_MOD : Nat) : Int)
  else ((n % SIZE_MOD : Nat) : Int) - (SIZE_MOD : Int)

/-! ## Pixel -/

/-- A triple of `unsigned int` (`std::array<unsigned int, 3>` in the host
program, `sycl::vec<unsigned int, 3>` in the device programs). -/
structure UVec3 where
  s0 : Nat
  s1 : Nat
  s2 : Nat
deriving DecidableEq, Repr

/-- The class `Pixel`: three bytes `r`, `g`, `b`. -/
structure Pixel where
  r : Nat
  g : Nat
  b : Nat
deriving DecidableEq, Repr

namespace Pixel

def getR (p : Pixel) : Nat := p.r
def getG (p : Pixel) : Nat := p.g
def getB (p : Pixel) : Nat := p.b

/-- `Pixel::fromArray` of `01_image_blur_openmp.cpp`: each channel is
`static_cast<byte>(std::clamp(inp[k], 0u, 255u))`. -/
def fromArray (inp : UVec3) : Pixel :=
  { r := toByte (clamp inp.s0 0 255)
    g := toByte (clamp inp.s1 0 255)
    b := toByte (clamp inp.s2 0 255) }

/-- `Pixel::fromArray` of `02_image_blur_usm.cpp` and
`03_image_blur_buffers.cpp`: the componentwise
`sycl::clamp(inp, {0,0,0}, {255,255,255})` followed by `convert<byte>()`. -/
def fromArraySycl (inp : UVec3) : Pixel :=
  let clamped : UVec3 :=
    { s0 := clamp inp.s0 0 255, s1 := clamp inp.s1 0 255, s2 := clamp inp.s2 0 255 }
  { r := toByte clamped.s0, g := toByte clamped.s1, b := toByte clamped.s2 }

/-- The conversion operator `operator std::array<unsigned int, 3>()`:
`{r, g, b}`. -/
def toArray (p : Pixel) : UVec3 := { s0 := p.r, s1 := p.g, s2 := p.b }

end Pixel

/-! ## Byte buffers -/

/-- Reads `bytes[0]`, `bytes[1]`, `bytes[2]` where `bytes = data + off`. -/
def readPixel (data : List Nat) (off : Nat) : Option Pixel := do
  let r ← data[off]?
  let g ← data[off + 1]?
  let b ← data[off + 2]?
  pure { r := r, g := g, b := b }

/-- Stores `p.getR()`, `p.getG()`, `p.getB()` to `bytes[0]`, `bytes[1]`,
`bytes[2]` where `bytes = data + off`. -/
def writePixel (data : List Nat) (off : Nat) (p : Pixel) : Option (List Nat) :=
  if off + 2 < data.length then
    some (((data.set off p.getR).set (off + 1) p.getG).set (off + 2) p.getB)
  else none

/-- The pointer offset `mWidth * x * 3 + y * 3`, computed in `size_t`. -/
def byteOffset (mWidth x y : Nat) : Nat :=
  (mWidth * x * 3) % SIZE_MOD + (y * 3) % SIZE_MOD

/-! ## Image (host) and DeviceImage -/

/-- The class `Image`: dimensions and the byte buffer `mData`. -/
structure Image where
  mWidth : Nat
  mHeight : Nat
  mData : List Nat
deriving DecidableEq, Repr

namespace Image

def get_width (img : Image) : Nat := img.mWidth
def get_height (img : Image) : Nat := img.mHeight

/-- `Image::operator()(x, y)`. -/
def operatorCall (img : Image) (x y : Nat) : Option Pixel :=
  readPixel img.mData (byteOffset img.mWidth x y)

/-- `Image::setPixel(p, x, y)`. -/
def setPixel (img : Image) (p : Pixel) (x y : Nat) : Option Image :=
  (writePixel img.mData (byteOffset img.mWidth x y) p).map
    fun d => { img with mData := d }

end Image

/-- The class `DeviceImage` of `02_image_blur_usm.cpp`. -/
structure DeviceImage where
  mWidth : Nat
  mHeight : Nat
  mData : List Nat
deriving DecidableEq, Repr

namespace DeviceImage

def get_width (img : DeviceImage) : Nat := img.mWidth
def get_height (img : DeviceImage) : Nat := img.mHeight

/-- `DeviceImage::operator()(x, y)`. -/
def operatorCall (img : DeviceImage) (x y : Nat) : Option Pixel :=
  readPixel img.mData (byteOffset img.mWidth x y)

/-- `DeviceImage::setPixel(p, x, y)`. -/
def setPixel (img : DeviceImage) (p : Pixel) (x y : Nat) : Option DeviceImage :=
  (writePixel img.mData (byteOffset img.mWidth x y) p).map
    fun d => { img with mData := d }

end DeviceImage

/-! ## The host kernel (`01_image_blur_openmp.cpp`) -/

/-- `constexpr int radius = 4`. -/
def radius : Nat := 4

/-- `constexpr unsigned int area = (2 * radius + 1) * (2 * radius + 1)`. -/
def area : Nat := (2 * radius + 1) * (2 * radius + 1)

/-- The values the loop variable takes, in order, in
`for (int x = -radius; x < radius; x++)`. -/
def window : List Int :=
  (List.range (2 * radius)).map fun k => (k : Int) - (radius : Int)

namespace UVec3

/-- The zero-initialised accumulator `sum{0}`. -/
def zero : UVec3 := { s0 := 0, s1 := 0, s2 := 0 }

/-- Componentwise `unsigned int` addition (wrapping modulo `2 ^ 32`). -/
def add (a b : UVec3) : UVec3 :=
  { s0 := (a.s0 + b.s0) % UINT_MOD
    s1 := (a.s1 + b.s1) % UINT_MOD
    s2 := (a.s2 + b.s2) % UINT_MOD }

/-- Componentwise `sum /= area`. -/
def divScalar (a : UVec3) (d : Nat) : UVec3 :=
  { s0 := a.s0 / d, s1 := a.s1 / d, s2 := a.s2 / d }

end UVec3

/-- Body of the two inner loops of the host `blur_image`: clamp the sample
coordinates, read the pixel, add its channels to `sum`. -/
def blur_sample (inp : Image) (i j : Nat) (sum : UVec3) (x y : Int) : Option UVec3 := do
  let realX := clamp (addSizeInt i x) 0 inp.get_width
  let realY := clamp (addSizeInt j y) 0 inp.get_height
  let p ← inp.operatorCall realX realY
  pure { s0 := (sum.s0 + p.getR) % UINT_MOD
         s1 := (sum.s1 + p.getG) % UINT_MOD
         s2 := (sum.s2 + p.getB) % UINT_MOD }

/-- The two inner loops of the host `blur_image` at output index `(i, j)`. -/
def blur_sum (inp : Image) (i j : Nat) : Option UVec3 :=
  window.foldlM
    (fun sum x => window.foldlM (fun acc y => blur_sample inp i j acc x y) sum)
    UVec3.zero

/-- The pixel that the host `blur_image` passes to `out.setPixel(sum, i, j)`:
the accumulated sums divided by `area`, converted by the `Pixel` constructor. -/
def blur_pixel (inp : Image) (i j : Nat) : Option Pixel :=
  (blur_sum inp i j).map fun sum => Pixel.fromArray (sum.divScalar area)

/-- One iteration of the loop nest of the host `blur_image`. -/
def blur_step (inp out : Image) (i j : Nat) : Option Image := do
  let p ← blur_pixel inp i j
  out.setPixel p i j

/-- The host `blur_image(in, out)`: `i` runs over `[0, in.get_width())`, `j`
over `[0, in.get_height())`. The line `#pragma parallel for collapse(2)` names
no OpenMP directive, so the loops run in program order. -/
def blur_image (inp out : Image) : Option Image :=
  (List.range inp.get_width).foldlM
    (fun o i => (List.range inp.get_height).foldlM (fun acc j => blur_step inp acc i j) o)
    out

/-- The constructor `Image(path, width, height)` in `create` mode: a buffer of
`width * height * channels` bytes obtained from `new byte[...]`, whose content
is indeterminate and is supplied here by `fresh`. -/
def Image.create (width height : Nat) (fresh : Nat → Nat) : Image :=
  { mWidth := width
    mHeight := height
    mData := (List.range (width * height * 3 % SIZE_MOD)).map fresh }

/-- The `main` of `01_image_blur_openmp.cpp` after decoding: allocate the
output image with the input dimensions and run `blur_image`. -/
def main (inImg : Image) (fresh : Nat → Nat) : Option Image :=
  blur_image inImg (Image.create inImg.get_width inImg.get_height fresh)

/-! ## The USM device kernel (`02_image_blur_usm.cpp`) -/

/-- The call `memcpy(dst, src, n)`. -/
def memcpy (dst src : List Nat) (n : Nat) : Option (List Nat) :=
  if n ≤ src.length ∧ n ≤ dst.length then some (src.take n ++ dst.drop n) else none

/-- The constructor `DeviceImage(q, width, height)`: device memory of
`width * height * 3` bytes with indeterminate content. -/
def DeviceImage.create (width height : Nat) (fresh : Nat → Nat) : DeviceImage :=
  { mWidth := width
    mHeight := height
    mData := (List.range (width * height * 3 % SIZE_MOD)).map fresh }

namespace Usm

/-- Body of the two inner loops of the USM kernel. -/
def blur_sample (inp : DeviceImage) (i j : Nat) (sum : UVec3) (x y : Int) : Option UVec3 := do
  let realX := clamp (addSizeInt i x) 0 inp.get_width
  let realY := clamp (addSizeInt j y) 0 inp.get_height
  let p ← inp.operatorCall realX realY
  let val := p.toArray
  pure (sum.add val)

/-- The two inner loops of the USM kernel for the work item `(i, j)`. -/
def blur_sum (inp : DeviceImage) (i j : Nat) : Option UVec3 :=
  window.foldlM
    (fun sum x => window.foldlM (fun acc y => blur_sample inp i j acc x y) sum)
    UVec3.zero

/-- The pixel the USM work item `(i, j)` passes to `out.setPixel`. -/
def blur_pixel (inp : DeviceImage) (i j : Nat) : Option Pixel :=
  (blur_sum inp i j).map fun sum => Pixel.fromArraySycl (sum.divScalar area)

/-- The USM work item `(i, j)`. -/
def blur_item (inp out : DeviceImage) (i j : Nat) : Option DeviceImage := do
  let p ← blur_pixel inp i j
  out.setPixel p i j

/-- The USM `blur_image`: `parallel_for` over `range{in.get_width(),
in.get_height()}`. Work items are independent; they are run here in the order
of their linear id. -/
def blur_image (inp out : DeviceImage) : Option DeviceImage :=
  (List.range inp.get_width).foldlM
    (fun o i => (List.range inp.get_height).foldlM (fun acc j => blur_item inp acc i j) o)
    out

/-- The `main` of `02_image_blur_usm.cpp` after decoding. -/
def main (inImg : Image) (fresh freshIn freshOut : Nat → Nat) : Option Image := do
  let outImg := Image.create inImg.get_width inImg.get_height fresh
  let inDev := DeviceImage.create inImg.get_width inImg.get_height freshIn
  let outDev := DeviceImage.create inImg.get_width inImg.get_height freshOut
  let inBytes ← memcpy inDev.mData inImg.mData
    (3 * inImg.get_height * inImg.get_width % SIZE_MOD)
  let outDev ← blur_image { inDev with mData := inBytes } outDev
  let outBytes ← memcpy outImg.mData outDev.mData
    (3 * outImg.get_height * outImg.get_width % SIZE_MOD)
  pure { outImg with mData := outBytes }

end Usm

/-! ## The buffer/accessor kernel (`03_image_blur_buffers.cpp`) -/

/-- A `sycl::buffer<Pixel, 2>` over host memory: the range and the bytes of
the `Pixel` array (three bytes per `Pixel`). -/
structure Buffer2 where
  range0 : Nat
  range1 : Nat
  data : List Nat
deriving DecidableEq, Repr

namespace Buffer2

/-- The accessor read `inp[a0][a1]`: element `a0 * range[1] + a1` of the
`Pixel` array (row-major linearisation, last dimension contiguous). -/
def read (b : Buffer2) (a0 a1 : Nat) : Option Pixel :=
  readPixel b.data (3 * (a0 * b.range1 + a1))

/-- The accessor write `outp[id] = p`. -/
def write (b : Buffer2) (a0 a1 : Nat) (p : Pixel) : Option Buffer2 :=
  (writePixel b.data (3 * (a0 * b.range1 + a1)) p).map fun d => { b with data := d }

end Buffer2

namespace Buffers

/-- The lambda `clampedDim(val, dim)` with `id[dim] = idDim` and
`range[dim] = rangeDim`:
`static_cast<size_t>(sycl::clamp<long>(val + id[dim], 0, range[dim]))`. -/
def clampedDim (idDim rangeDim : Nat) (val : Int) : Nat :=
  ((clampLong (toLong (addSizeInt idDim val)) 0 (toLong rangeDim)) % (SIZE_MOD : Int)).toNat

/-- Body of the two inner loops of the buffer kernel. -/
def blur_sample (inp : Buffer2) (id0 id1 : Nat) (sum : UVec3) (x y : Int) : Option UVec3 := do
  let realX := clampedDim id0 inp.range0 x
  let realY := clampedDim id1 inp.range1 y
  let p ← inp.read realX realY
  let val := p.toArray
  pure (sum.add val)

/-- The two inner loops of the buffer kernel for the work item `(id0, id1)`. -/
def blur_sum (inp : Buffer2) (id0 id1 : Nat) : Option UVec3 :=
  window.foldlM
    (fun sum x => window.foldlM (fun acc y => blur_sample inp id0 id1 acc x y) sum)
    UVec3.zero

/-- The pixel the buffer work item assigns to `outp[id]`: `sum / area`
converted by `Pixel::operator=`. -/
def blur_pixel (inp : Buffer2) (id0 id1 : Nat) : Option Pixel :=
  (blur_sum inp id0 id1).map fun sum => Pixel.fromArraySycl (sum.divScalar area)

/-- The buffer work item `(id0, id1)`. -/
def blur_item (inp out : Buffer2) (id0 id1 : Nat) : Option Buffer2 := do
  let p ← blur_pixel inp id0 id1
  out.write id0 id1 p

/-- The buffer `blur_image`: `parallel_for` over `img.get_range()`, work items
run in the order of their linear id. -/
def blur_image (inp out : Buffer2) : Option Buffer2 :=
  (List.range inp.range0).foldlM
    (fun o i => (List.range inp.range1).foldlM (fun acc j => blur_item inp acc i j) o)
    out

/-- The `main` of `03_image_blur_buffers.cpp` after decoding: both images are
wrapped in buffers of range `{width, height}`; the output buffer is written
back to `outImg` when it goes out of scope. -/
def main (inImg : Image) (fresh : Nat → Nat) : Option Image := do
  let outImg := Image.create inImg.get_width inImg.get_height fresh
  let inp : Buffer2 :=
    { range0 := inImg.get_width, range1 := inImg.get_height, data := inImg.mData }
  let out : Buffer2 :=
    { range0 := inImg.get_width, range1 := inImg.get_height, data := outImg.mData }
  let res ← blur_image inp out
  pure { outImg with mData := res.data }

end Buffers

/-- Byte offset that the buffer kernel reads for the work item `(id0, id1)`
and the loop variables `(x, y)`: three times the linear index of
`inp[realX][realY]`. -/
def Buffers.sampleOffset (inp : Buffer2) (id0 id1 : Nat) (x y : Int) : Nat :=
  3 * (Buffers.clampedDim id0 inp.range0 x * inp.range1 + Buffers.clampedDim id1 inp.range1 y)

/-! ## Sample offsets and decoded images -/

/-- Byte offset that the host kernel reads at output index `(i, j)` for the
loop variables `(x, y)`: the offset `Image::operator()` forms from the clamped
coordinates `realX`, `realY`. -/
def sampleOffset (inp : Image) (i j : Nat) (x y : Int) : Nat :=
  byteOffset inp.mWidth (clamp (addSizeInt i x) 0 inp.get_width)
    (clamp (addSizeInt j y) 0 inp.get_height)

/-- An image as `stbi_load` returns it with three requested channels: the
dimensions and `width * height * 3` bytes, the byte at offset `k` being
`f k`. -/
def Image.decoded (width height : Nat) (f : Nat → Nat) : Image :=
  { mWidth := width
    mHeight := height
    mData := (List.range (width * height * 3)).map f }

/-! ## The stencil as the specification words it

These definitions follow the specification, not the source; they are the
reference the kernels are compared with. -/

/-- The specification's `clamp(v, 0, dim - 1)` on a signed coordinate. -/
def spec_clampCoord (v : Int) (dim : Nat) : Nat :=
  (max 0 (min v ((dim : Int) - 1))).toNat

/-- Channel `c` of the pixel at `(row, col)` in the row-major layout: the byte
at offset `3 * (row * width + col) + c`. -/
def spec_channel (img : Image) (row col c : Nat) : Nat :=
  img.mData.getD (3 * (row * img.mWidth + col) + c) 0

/-- Sum of channel `c` over the 64 neighbourhood samples of `(row, col)`:
`dy` and `dx` each range over `-4 .. 3`, coordinates clamped to the image. -/
def spec_windowSum (img : Image) (row col c : Nat) : Nat :=
  (window.map fun dy =>
    (window.map fun dx =>
      spec_channel img (spec_clampCoord ((row : Int) + dy) img.mHeight)
        (spec_clampCoord ((col : Int) + dx) img.mWidth) c).sum).sum

/-- The specification's `AREA = (2 * RADIUS) * (2 * RADIUS) = 64`. -/
def spec_AREA : Nat := (2 * radius) * (2 * radius)

/-- The specification's output pixel: per channel the window sum divided by
`AREA` (truncating), saturated to 8 bits. -/
def spec_blur_pixel (img : Image) (row col : Nat) : Pixel :=
  { r := min (spec_windowSum img row col 0 / spec_AREA) 255
    g := min (spec_windowSum img row col 1 / spec_AREA) 255
    b := min (spec_windowSum img row col 2 / spec_AREA) 255 }

/-! ## The host kernel on a buffer given by its content function

The same loops as `blur_sample`, `blur_sum`, `blur_pixel`, reading the bytes
of a decoded image through their content function. They are proved equal to
the kernel on `Image.decoded` and serve to evaluate it on concrete images. -/

/-- The read `readPixel` on the buffer of `n` bytes whose byte `k` is `f k`. -/
def readTab (n : Nat) (f : Nat → Nat) (off : Nat) : Option Pixel :=
  if off + 2 < n then some { r := f off, g := f (off + 1), b := f (off + 2) } else none

/-- The loop body `blur_sample` on such a buffer. -/
def tab_sample (w h n : Nat) (f : Nat → Nat) (i j : Nat) (sum : UVec3) (x y : Int) :
    Option UVec3 := do
  let realX := clamp (addSizeInt i x) 0 w
  let realY := clamp (addSizeInt j y) 0 h
  let p ← readTab n f (byteOffset w realX realY)
  pure { s0 := (sum.s0 + p.getR) % UINT_MOD
         s1 := (sum.s1 + p.getG) % UINT_MOD
         s2 := (sum.s2 + p.getB) % UINT_MOD }

/-- The loops `blur_sum` on such a buffer. -/
def tab_sum (w h n : Nat) (f : Nat → Nat) (i j : Nat) : Option UVec3 :=
  window.foldlM
    (fun sum x => window.foldlM (fun acc y => tab_sample w h n f i j acc x y) sum)
    UVec3.zero

/-- The pixel `blur_pixel` on such a buffer. -/
def tab_pixel (w h n : Nat) (f : Nat → Nat) (i j : Nat) : Option Pixel :=
  (tab_sum w h n f i j).map fun sum => Pixel.fromArray (sum.divScalar area)

/-- One iteration of the loop nest of `blur_image` on such an input. -/
def tab_step (w h n : Nat) (f : Nat → Nat) (out : Image) (i j : Nat) : Option Image := do
  let p ← tab_pixel w h n f i j
  out.setPixel p i j

/-- The loop nest of `blur_image` on such an input. -/
def tab_image (w h n : Nat) (f : Nat → Nat) (out : Image) : Option Image :=
  (List.range w).foldlM
    (fun o i => (List.range h).foldlM (fun acc j => tab_step w h n f acc i j) o)
    out

/-! ## Concrete images -/

/-- The image of one colour `(r, g, b)`. -/
def solid (w h r g b : Nat) : Image :=
  Image.decoded w h fun k => if k % 3 = 0 then r else if k % 3 = 1 then g else b

/-- The 16x16 image with columns 0..7 black and columns 8..15 white. -/
def split16 : Image :=
  Image.decoded 16 16 fun k => if (k / 3) % 16 < 8 then 0 else 255

/-- The 16x16 black image with one white pixel at `(row 8, col 8)`. -/
def impulse16 : Image :=
  Image.decoded 16 16 fun k => if k / 3 = 16 * 8 + 8 then 255 else 0

/-- The 8x8 gradient with `pixel(row, col) = (32 * col, 32 * col, 32 * col)`. -/
def gradient8 : Image :=
  Image.decoded 8 8 fun k => 32 * ((k / 3) % 8)

/-- The image of width 4 and height 6 whose first pixel is white, all others
black. -/
def corner4x6 : Image :=
  Image.decoded 4 6 fun k => if k < 3 then 255 else 0

/-! ## Channel permutations -/

/-- Channel `k` of a pixel: 0 is R, 1 is G, 2 is B. -/
def Pixel.chan (p : Pixel) (k : Fin 3) : Nat :=
  if k.val = 0 then p.r else if k.val = 1 then p.g else p.b

/-- Component `k` of a triple. -/
def UVec3.chan (v : UVec3) (k : Fin 3) : Nat :=
  if k.val = 0 then v.s0 else if k.val = 1 then v.s1 else v.s2

/-- The pixel `p` with its channels permuted: channel `k` of the result is
channel `σ k` of `p`. -/
def permPixel (σ : Equiv.Perm (Fin 3)) (p : Pixel) : Pixel :=
  { r := p.chan (σ 0), g := p.chan (σ 1), b := p.chan (σ 2) }

/-- The triple `v` with its components permuted in the same way. -/
def permVec (σ : Equiv.Perm (Fin 3)) (v : UVec3) : UVec3 :=
  { s0 := v.chan (σ 0), s1 := v.chan (σ 1), s2 := v.chan (σ 2) }

/-- The permutation applied to every pixel of a packed RGB buffer. -/
def permBytes (σ : Equiv.Perm (Fin 3)) : List Nat → List Nat
  | r :: g :: b :: rest =>
    (permPixel σ { r := r, g := g, b := b }).r ::
      (permPixel σ { r := r, g := g, b := b }).g ::
        (permPixel σ { r := r, g := g, b := b }).b :: permBytes σ rest
  | l => l

/-- The permutation applied to every pixel of an image. -/
def permImage (σ : Equiv.Perm (Fin 3)) (img : Image) : Image :=
  { img with mData := permBytes σ img.mData }

/-! ## Vector addition (`05_vector_add_buffers.cpp`) -/

namespace VectorAdd

/-- The smallest `int`. -/
def INT_MIN : Int := -(2 ^ 31)

/-- The largest `int`. -/
def INT_MAX : Int := 2 ^ 31 - 1

/-- The `int` addition `x + y`; signed overflow has no defined result. -/
def addInt (x y : Int) : Option Int :=
  if INT_MIN ≤ x + y ∧ x + y ≤ INT_MAX then some (x + y) else none

/-- `constexpr int size = 10000`. -/
def size : Nat := 10000

/-- The call `std::iota(begin, end, value)` on a vector of `n` elements:
element `k` receives `value` after `k` increments. -/
def iota (n : Nat) (value : Int) : List Int :=
  (List.range n).map fun (k : Nat) => value + (k : Int)

/-- The work item `i` of the kernel: `result_acc[i] = a_acc[i] + b_acc[i]`. -/
def kernel_item (a b result : List Int) (i : Nat) : Option (List Int) := do
  let x ← a[i]?
  let y ← b[i]?
  let sum ← addInt x y
  if i < result.length then some (result.set i sum) else none

/-- The call `parallel_for(num_items, ...)`: the work items `0 .. n - 1`, run
in the order of their id; the result buffer is written back to `result_vec`
when the buffers go out of scope. -/
def kernel (a b result : List Int) (n : Nat) : Option (List Int) :=
  (List.range n).foldlM (fun r i => kernel_item a b r i) result

/-- How `main` ends: with `ERROR: result[i] == value` and exit status -1, or
with `Results correct!` and `EXIT_SUCCESS`. -/
inductive Outcome where
  | error (i : Nat) (value : Int)
  | correct
deriving DecidableEq, Repr

/-- The exit status of `main`. -/
def Outcome.exitCode : Outcome → Int
  | Outcome.error _ _ => -1
  | Outcome.correct => 0

/-- The verification loop of `main` over the indices still to check. -/
def verify (a b result : List Int) : List Nat → Option Outcome
  | [] => some Outcome.correct
  | i :: rest => do
    let r ← result[i]?
    let x ← a[i]?
    let y ← b[i]?
    let sum ← addInt x y
    if r ≠ sum then some (Outcome.error i r) else verify a b result rest

/-- The `main` of `05_vector_add_buffers.cpp`. -/
def main : Option Outcome := do
  let a_vec := iota size 1
  let b_vec := a_vec
  let result_vec := List.replicate size 0
  let result_vec ← kernel a_vec b_vec result_vec size
  verify a_vec b_vec result_vec (List.range size)

end VectorAdd

/-! ## Basic facts about the machine arithmetic -/

theorem clamp_zero_lo (v hi : Nat) : clamp v 0 hi = min v hi := by
  unfold clamp
  by_cases h : hi < v
  · simp [h, Nat.min_eq_right (Nat.le_of_lt h)]
  · simp [h, Nat.min_eq_left (Nat.le_of_not_lt h)]

theorem toByte_clamp (a : Nat) : toByte (clamp a 0 255) = min a 255 := by
  rw [clamp_zero_lo]
  unfold toByte
  exact Nat.mod_eq_of_lt (by omega)

theorem byteOffset_eq (w x y : Nat) (hx : w * x * 3 < SIZE_MOD) (hy : y * 3 < SIZE_MOD) :
    byteOffset w x y = 3 * (x * w + y) := by
  unfold byteOffset
  rw [Nat.mod_eq_of_lt hx, Nat.mod_eq_of_lt hy]
  ring

/-- Inside an image whose byte count fits a `size_t`, the pointer offset of
`(row, col)` is the row-major offset and the three bytes lie in the buffer. -/
theorem byteOffset_inRange (w h row col : Nat) (hsz : 3 * w * h < SIZE_MOD)
    (hr : row < h) (hc : col < w) :
    byteOffset w row col = 3 * (row * w + col) ∧ 3 * (row * w + col) + 2 < 3 * w * h := by
  have h1 : row * w + col < w * h := by
    have : (row + 1) * w ≤ h * w := Nat.mul_le_mul_right w hr
    nlinarith
  have h2 : 3 * (row * w + col) + 2 < 3 * w * h := by nlinarith
  refine ⟨byteOffset_eq w row col ?_ ?_, h2⟩
  · nlinarith
  · nlinarith

theorem readPixel_of_lt (data : List Nat) (off : Nat) (h : off + 2 < data.length) :
    readPixel data off
      = some { r := data.getD off 0, g := data.getD (off + 1) 0, b := data.getD (off + 2) 0 } := by
  have h0 : off < data.length := by omega
  have h1 : off + 1 < data.length := by omega
  simp [readPixel, List.getD, List.getElem?_eq_getElem, h, h0, h1]

theorem writePixel_of_lt (data : List Nat) (off : Nat) (p : Pixel) (h : off + 2 < data.length) :
    writePixel data off p
      = some (((data.set off p.getR).set (off + 1) p.getG).set (off + 2) p.getB) := by
  simp [writePixel, h]

/-- What the three stores of `writePixel` leave in the buffer. -/
theorem writePixel_spec (data : List Nat) (off : Nat) (p : Pixel) (h : off + 2 < data.length) :
    ∃ d, writePixel data off p = some d ∧ d.length = data.length ∧
      d[off]? = some p.r ∧ d[off + 1]? = some p.g ∧ d[off + 2]? = some p.b ∧
      ∀ k, k ≠ off → k ≠ off + 1 → k ≠ off + 2 → d[k]? = data[k]? := by
  have h0 : off < data.length := by omega
  have h1 : off + 1 < data.length := by omega
  refine ⟨_, writePixel_of_lt data off p h, by simp, ?_, ?_, ?_, ?_⟩
  · simp [List.getElem?_set, h0, Pixel.getR]
  · simp [List.getElem?_set, h1, Pixel.getG]
  · simp [List.getElem?_set, h, Pixel.getB]
  · intro k k0 k1 k2
    simp [List.getElem?_set, Ne.symm k0, Ne.symm k1, Ne.symm k2]

/-! ## C8: saturating pixel construction -/

/-- C8: for every triple `(a, b, c)`, `Pixel::fromArray` (the `std::array`
version of the host program and the `sycl::vec` version of the device
programs) yields the channels `(min a 255, min b 255, min c 255)`: values above
255 become 255, values up to 255 are kept. -/
theorem C8_fromArray_saturates (a b c : Nat) :
    Pixel.fromArray { s0 := a, s1 := b, s2 := c }
        = { r := min a 255, g := min b 255, b := min c 255 } ∧
    Pixel.fromArraySycl { s0 := a, s1 := b, s2 := c }
        = { r := min a 255, g := min b 255, b := min c 255 } := by
  simp only [Pixel.fromArray, Pixel.fromArraySycl, toByte_clamp, and_self]

/-! ## C10: row-major layout -/

/-- C10: in an image of width `w` and height `h` whose buffer holds `3 * w * h`
bytes (a count that fits a `size_t`), for `row < h` and `col < w`,
`Image::operator()(row, col)` and `DeviceImage::operator()(row, col)` return
the pixel made of the bytes at offsets `3 * (row * w + col) + 0, + 1, + 2`, and
`setPixel(p, row, col)` stores the channels of `p` at exactly those three
offsets, leaving the dimensions, the length and every other byte unchanged. -/
theorem C10_row_major_layout (w h : Nat) (data : List Nat) (p : Pixel) (row col : Nat)
    (hlen : data.length = 3 * w * h) (hsz : 3 * w * h < SIZE_MOD)
    (hr : row < h) (hc : col < w) :
    (Image.operatorCall { mWidth := w, mHeight := h, mData := data } row col
        = some { r := data.getD (3 * (row * w + col)) 0
                 g := data.getD (3 * (row * w + col) + 1) 0
                 b := data.getD (3 * (row * w + col) + 2) 0 } ∧
      DeviceImage.operatorCall { mWidth := w, mHeight := h, mData := data } row col
        = some { r := data.getD (3 * (row * w + col)) 0
                 g := data.getD (3 * (row * w + col) + 1) 0
                 b := data.getD (3 * (row * w + col) + 2) 0 }) ∧
    3 * (row * w + col) + 2 < data.length ∧
    ∃ d, Image.setPixel { mWidth := w, mHeight := h, mData := data } p row col
          = some { mWidth := w, mHeight := h, mData := d } ∧
        DeviceImage.setPixel { mWidth := w, mHeight := h, mData := data } p row col
          = some { mWidth := w, mHeight := h, mData := d } ∧
        d.length = data.length ∧
        d[3 * (row * w + col)]? = some p.r ∧
        d[3 * (row * w + col) + 1]? = some p.g ∧
        d[3 * (row * w + col) + 2]? = some p.b ∧
        ∀ k, k ≠ 3 * (row * w + col) → k ≠ 3 * (row * w + col) + 1 →
          k ≠ 3 * (row * w + col) + 2 → d[k]? = data[k]? := by
  obtain ⟨hoff, hin⟩ := byteOffset_inRange w h row col hsz hr hc
  have hin2 : 3 * (row * w + col) + 2 < data.length := by rw [hlen]; exact hin
  obtain ⟨d, hd, hrest⟩ := writePixel_spec data (3 * (row * w + col)) p hin2
  refine ⟨⟨?_, ?_⟩, hin2, d, ?_, ?_, hrest⟩
  · simp only [Image.operatorCall, hoff, readPixel_of_lt data _ hin2]
  · simp only [DeviceImage.operatorCall, hoff, readPixel_of_lt data _ hin2]
  · simp only [Image.setPixel, hoff, hd, Option.map_some']
  · simp only [DeviceImage.setPixel, hoff, hd, Option.map_some']

/-- C10 at a concrete input: the 3x2 image with bytes `0, 1, ..., 17`, pixel
`(row 1, col 2)`, which occupies offsets 15, 16, 17. -/
theorem C10_row_major_layout_witness :
    Image.operatorCall { mWidth := 3, mHeight := 2, mData := List.range 18 } 1 2
      = some { r := 15, g := 16, b := 17 } ∧
    ∃ d, Image.setPixel { mWidth := 3, mHeight := 2, mData := List.range 18 }
            { r := 70, g := 80, b := 90 } 1 2
          = some { mWidth := 3, mHeight := 2, mData := d } ∧
        d[15]? = some 70 ∧ d[16]? = some 80 ∧ d[17]? = some 90 := by
  have key := C10_row_major_layout 3 2 (List.range 18) { r := 70, g := 80, b := 90 } 1 2
    (by decide) (by decide) (by decide) (by decide)
  obtain ⟨⟨hget, _⟩, _, d, hset, _, _, h0, h1, h2, _⟩ := key
  exact ⟨hget.trans (by decide), d, hset, h0, h1, h2⟩

/-! ## The accumulation loops -/

theorem mem_window (x : Int) (hx : x ∈ window) : -4 ≤ x ∧ x ≤ 3 := by
  have hw : window = [-4, -3, -2, -1, 0, 1, 2, 3] := by decide
  rw [hw] at hx
  simp only [List.mem_cons, List.mem_singleton, List.not_mem_nil, or_false] at hx
  omega

theorem window_length : window.length = 8 := by
  decide

theorem addSizeInt_of_nonneg (i : Nat) (x : Int) (h0 : 0 ≤ (i : Int) + x)
    (h1 : (i : Int) + x < (SIZE_MOD : Int)) : addSizeInt i x = ((i : Int) + x).toNat := by
  unfold addSizeInt
  rw [Int.emod_eq_of_lt h0 h1]

theorem getD_lt_of_bytes (data : List Nat) (hb : ∀ b ∈ data, b < 256) (k : Nat) :
    data.getD k 0 < 256 := by
  by_cases hk : k < data.length
  · rw [List.getD_eq_getElem data 0 hk]
    exact hb _ (List.getElem_mem hk)
  · rw [List.getD_eq_default data 0 (Nat.le_of_not_lt hk)]
    decide

/-- A loop that adds a bounded triple per element never wraps the `unsigned
int` accumulator while the running total stays below `2 ^ 32`. -/
theorem foldlM_accumulate {α : Type} (step : UVec3 → α → Option UVec3) (g : α → UVec3)
    (c : Nat) :
    ∀ (l : List α),
      (∀ a ∈ l, ∀ s : UVec3, s.s0 + c < UINT_MOD → s.s1 + c < UINT_MOD → s.s2 + c < UINT_MOD →
        step s a = some { s0 := s.s0 + (g a).s0, s1 := s.s1 + (g a).s1,
                          s2 := s.s2 + (g a).s2 }) →
      (∀ a ∈ l, (g a).s0 ≤ c ∧ (g a).s1 ≤ c ∧ (g a).s2 ≤ c) →
      ∀ s : UVec3, s.s0 + c * l.length < UINT_MOD → s.s1 + c * l.length < UINT_MOD →
        s.s2 + c * l.length < UINT_MOD →
        l.foldlM step s
          = some { s0 := s.s0 + (l.map fun a => (g a).s0).sum
                   s1 := s.s1 + (l.map fun a => (g a).s1).sum
                   s2 := s.s2 + (l.map fun a => (g a).s2).sum }
  | [], _, _, s, _, _, _ => by simp
  | a :: l, hstep, hg, s, h0, h1, h2 => by
    simp only [List.length_cons, Nat.mul_succ] at h0 h1 h2
    obtain ⟨g0, g1, g2⟩ := hg a (List.mem_cons_self a l)
    have hs := hstep a (List.mem_cons_self a l) s (by omega) (by omega) (by omega)
    have ih := foldlM_accumulate step g c l
      (fun b hb => hstep b (List.mem_cons_of_mem a hb))
      (fun b hb => hg b (List.mem_cons_of_mem a hb))
      { s0 := s.s0 + (g a).s0, s1 := s.s1 + (g a).s1, s2 := s.s2 + (g a).s2 }
      (by simp only; omega) (by simp only; omega) (by simp only; omega)
    simp only [List.foldlM_cons, hs, Option.bind_eq_bind, Option.some_bind, ih,
      List.map_cons, List.sum_cons, Nat.add_assoc]

/-- One sample of the host kernel whose three bytes lie in the buffer adds
them to the accumulator. -/
theorem blur_sample_of_lt (inp : Image) (i j : Nat) (s : UVec3) (x y : Int)
    (hb : ∀ b ∈ inp.mData, b < 256)
    (hin : sampleOffset inp i j x y + 2 < inp.mData.length)
    (h0 : s.s0 + 255 < UINT_MOD) (h1 : s.s1 + 255 < UINT_MOD) (h2 : s.s2 + 255 < UINT_MOD) :
    blur_sample inp i j s x y
      = some { s0 := s.s0 + inp.mData.getD (sampleOffset inp i j x y) 0
               s1 := s.s1 + inp.mData.getD (sampleOffset inp i j x y + 1) 0
               s2 := s.s2 + inp.mData.getD (sampleOffset inp i j x y + 2) 0 } := by
  have b0 := getD_lt_of_bytes inp.mData hb (sampleOffset inp i j x y)
  have b1 := getD_lt_of_bytes inp.mData hb (sampleOffset inp i j x y + 1)
  have b2 := getD_lt_of_bytes inp.mData hb (sampleOffset inp i j x y + 2)
  have hread := readPixel_of_lt inp.mData (sampleOffset inp i j x y) hin
  unfold sampleOffset at hread
  simp only [blur_sample, Image.operatorCall, hread, Option.bind_eq_bind, Option.some_bind,
    Pixel.getR, Pixel.getG, Pixel.getB, Option.pure_def, Option.some.injEq, UVec3.mk.injEq]
  unfold sampleOffset at b0 b1 b2
  refine ⟨Nat.mod_eq_of_lt ?_, Nat.mod_eq_of_lt ?_, Nat.mod_eq_of_lt ?_⟩ <;> omega

/-- When all 64 samples of output index `(i, j)` lie in the buffer, the two
inner loops of the host kernel return the plain sums of the sampled bytes. -/
theorem blur_sum_of_inBounds (inp : Image) (i j : Nat)
    (hb : ∀ b ∈ inp.mData, b < 256)
    (hin : ∀ x ∈ window, ∀ y ∈ window, sampleOffset inp i j x y + 2 < inp.mData.length) :
    blur_sum inp i j
      = some { s0 := (window.map fun x =>
                  (window.map fun y => inp.mData.getD (sampleOffset inp i j x y) 0).sum).sum
               s1 := (window.map fun x =>
                  (window.map fun y => inp.mData.getD (sampleOffset inp i j x y + 1) 0).sum).sum
               s2 := (window.map fun x =>
                  (window.map fun y => inp.mData.getD (sampleOffset inp i j x y + 2) 0).sum).sum } := by
  have inner : ∀ x ∈ window, ∀ s : UVec3, s.s0 + 2040 < UINT_MOD → s.s1 + 2040 < UINT_MOD →
      s.s2 + 2040 < UINT_MOD →
      window.foldlM (fun acc y => blur_sample inp i j acc x y) s
        = some { s0 := s.s0 + (window.map fun y =>
                    inp.mData.getD (sampleOffset inp i j x y) 0).sum
                 s1 := s.s1 + (window.map fun y =>
                    inp.mData.getD (sampleOffset inp i j x y + 1) 0).sum
                 s2 := s.s2 + (window.map fun y =>
                    inp.mData.getD (sampleOffset inp i j x y + 2) 0).sum } := by
    intro x hx s h0 h1 h2
    refine foldlM_accumulate (fun acc y => blur_sample inp i j acc x y)
      (fun y => { s0 := inp.mData.getD (sampleOffset inp i j x y) 0
                  s1 := inp.mData.getD (sampleOffset inp i j x y + 1) 0
                  s2 := inp.mData.getD (sampleOffset inp i j x y + 2) 0 })
      255 window ?_ ?_ s ?_ ?_ ?_
    · intro y hy t t0 t1 t2
      exact blur_sample_of_lt inp i j t x y hb (hin x hx y hy) t0 t1 t2
    · intro y _
      have b0 := getD_lt_of_bytes inp.mData hb (sampleOffset inp i j x y)
      have b1 := getD_lt_of_bytes inp.mData hb (sampleOffset inp i j x y + 1)
      have b2 := getD_lt_of_bytes inp.mData hb (sampleOffset inp i j x y + 2)
      refine ⟨?_, ?_, ?_⟩ <;> simp only <;> omega
    all_goals rw [window_length]; omega
  have sum_le : ∀ (f : Int → Nat), (∀ y, f y < 256) → (window.map f).sum ≤ 2040 := by
    intro f hf
    have : ∀ l : List Int, (l.map f).sum ≤ 255 * l.length := by
      intro l
      induction l with
      | nil => simp
      | cons a l ih =>
        have := hf a
        simp only [List.map_cons, List.sum_cons, List.length_cons]
        omega
    have h8 := this window
    rw [window_length] at h8
    omega
  unfold blur_sum
  refine (foldlM_accumulate
    (fun sum x => window.foldlM (fun acc y => blur_sample inp i j acc x y) sum)
    (fun x => { s0 := (window.map fun y => inp.mData.getD (sampleOffset inp i j x y) 0).sum
                s1 := (window.map fun y => inp.mData.getD (sampleOffset inp i j x y + 1) 0).sum
                s2 := (window.map fun y => inp.mData.getD (sampleOffset inp i j x y + 2) 0).sum })
    2040 window ?_ ?_ UVec3.zero ?_ ?_ ?_).trans ?_
  · intro x hx s h0 h1 h2
    exact inner x hx s h0 h1 h2
  · intro x _
    refine ⟨?_, ?_, ?_⟩
    · exact sum_le (fun y => inp.mData.getD (sampleOffset inp i j x y) 0)
        (fun y => getD_lt_of_bytes inp.mData hb _)
    · exact sum_le (fun y => inp.mData.getD (sampleOffset inp i j x y + 1) 0)
        (fun y => getD_lt_of_bytes inp.mData hb _)
    · exact sum_le (fun y => inp.mData.getD (sampleOffset inp i j x y + 2) 0)
        (fun y => getD_lt_of_bytes inp.mData hb _)
  · rw [window_length]; norm_num [UVec3.zero, UINT_MOD]
  · rw [window_length]; norm_num [UVec3.zero, UINT_MOD]
  · rw [window_length]; norm_num [UVec3.zero, UINT_MOD]
  · simp only [UVec3.zero, Nat.zero_add]

/-! ## Evaluation on decoded images -/

theorem readPixel_tabulate (n : Nat) (f : Nat → Nat) (off : Nat) :
    readPixel ((List.range n).map f) off = readTab n f off := by
  unfold readPixel readTab
  by_cases h : off + 2 < n
  · have h0 : off < n := by omega
    have h1 : off + 1 < n := by omega
    simp [h, h0, h1, List.getElem?_range]
  · simp only [h, if_false]
    have h2 : ((List.range n).map f)[off + 2]? = none := by
      simp [List.getElem?_eq_none_iff]; omega
    simp only [h2]
    cases ((List.range n).map f)[off]? <;> cases ((List.range n).map f)[off + 1]? <;> rfl

theorem blur_pixel_decoded (w h : Nat) (f : Nat → Nat) (i j : Nat) :
    blur_pixel (Image.decoded w h f) i j = tab_pixel w h (w * h * 3) f i j := by
  simp only [blur_pixel, blur_sum, blur_sample, Image.operatorCall, Image.decoded,
    readPixel_tabulate, Image.get_width, Image.get_height, tab_pixel, tab_sum, tab_sample]

theorem spec_channel_decoded (w h : Nat) (f : Nat → Nat) (row col c : Nat) :
    spec_channel (Image.decoded w h f) row col c
      = if 3 * (row * w + col) + c < w * h * 3 then f (3 * (row * w + col) + c) else 0 := by
  unfold spec_channel Image.decoded
  by_cases hk : 3 * (row * w + col) + c < w * h * 3
  · simp [hk, List.getD, List.getElem?_range]
  · simp [hk, List.getD, List.getElem?_eq_none_iff.mpr (show ((List.range (w * h * 3)).map f).length
      ≤ 3 * (row * w + col) + c by simp; omega)]

theorem decoded_bytes_lt (w h : Nat) (f : Nat → Nat) (hf : ∀ k, f k < 256) :
    ∀ b ∈ (Image.decoded w h f).mData, b < 256 := by
  intro b hb
  simp only [Image.decoded, List.mem_map] at hb
  obtain ⟨k, _, rfl⟩ := hb
  exact hf k

/-! ## The value computed at interior pixels -/

/-- At an index whose window stays inside both dimensions of an image with
`int` dimensions, the offset the host kernel samples is the row-major offset
of the pixel the specification names, and it lies in the buffer. -/
theorem sampleOffset_interior (w h : Nat) (data : List Nat) (i j : Nat) (x y : Int)
    (hw : w < 2 ^ 31) (hh : h < 2 ^ 31)
    (hi : 4 ≤ i) (hiw : i + 4 ≤ w) (hih : i + 4 ≤ h)
    (hj : 4 ≤ j) (hjw : j + 4 ≤ w) (hjh : j + 4 ≤ h)
    (hx : x ∈ window) (hy : y ∈ window) :
    sampleOffset { mWidth := w, mHeight := h, mData := data } i j x y
        = 3 * (spec_clampCoord ((i : Int) + x) h * w + spec_clampCoord ((j : Int) + y) w) ∧
    3 * (spec_clampCoord ((i : Int) + x) h * w + spec_clampCoord ((j : Int) + y) w) + 2
        < 3 * w * h := by
  obtain ⟨x0, x1⟩ := mem_window x hx
  obtain ⟨y0, y1⟩ := mem_window y hy
  have hS : SIZE_MOD = 2 ^ 64 := rfl
  have hsz : 3 * w * h < SIZE_MOD := by
    rw [hS]
    have h1 : w * h ≤ 2 ^ 31 * 2 ^ 31 := Nat.mul_le_mul (Nat.le_of_lt hw) (Nat.le_of_lt hh)
    have h2 : 3 * w * h = 3 * (w * h) := Nat.mul_assoc 3 w h
    omega
  have hcx : spec_clampCoord ((i : Int) + x) h = ((i : Int) + x).toNat := by
    unfold spec_clampCoord
    rw [min_eq_left (by omega), max_eq_right (by omega)]
  have hcy : spec_clampCoord ((j : Int) + y) w = ((j : Int) + y).toNat := by
    unfold spec_clampCoord
    rw [min_eq_left (by omega), max_eq_right (by omega)]
  have hax : addSizeInt i x = ((i : Int) + x).toNat :=
    addSizeInt_of_nonneg i x (by omega) (by rw [hS]; push_cast; omega)
  have hay : addSizeInt j y = ((j : Int) + y).toNat :=
    addSizeInt_of_nonneg j y (by omega) (by rw [hS]; push_cast; omega)
  have hrx : ((i : Int) + x).toNat < h := by omega
  have hry : ((j : Int) + y).toNat < w := by omega
  have hrxw : ((i : Int) + x).toNat ≤ w := by omega
  have hryh : ((j : Int) + y).toNat ≤ h := by omega
  obtain ⟨hoff, hin⟩ := byteOffset_inRange w h _ _ hsz hrx hry
  rw [hcx, hcy]
  refine ⟨?_, hin⟩
  unfold sampleOffset
  simp only [Image.get_width, Image.get_height, hax, hay, clamp_zero_lo,
    Nat.min_eq_left hrxw, Nat.min_eq_left hryh, hoff]

theorem windowSum_interior (w h : Nat) (data : List Nat) (i j c : Nat)
    (hw : w < 2 ^ 31) (hh : h < 2 ^ 31)
    (hi : 4 ≤ i) (hiw : i + 4 ≤ w) (hih : i + 4 ≤ h)
    (hj : 4 ≤ j) (hjw : j + 4 ≤ w) (hjh : j + 4 ≤ h) :
    (window.map fun x => (window.map fun y =>
        data.getD (sampleOffset { mWidth := w, mHeight := h, mData := data } i j x y + c) 0).sum).sum
      = spec_windowSum { mWidth := w, mHeight := h, mData := data } i j c := by
  unfold spec_windowSum spec_channel
  congr 1
  apply List.map_congr_left
  intro x hx
  congr 1
  apply List.map_congr_left
  intro y hy
  rw [(sampleOffset_interior w h data i j x y hw hh hi hiw hih hj hjw hjh hx hy).1]

theorem blur_pixel_interior (w h : Nat) (data : List Nat) (i j : Nat)
    (hw : w < 2 ^ 31) (hh : h < 2 ^ 31)
    (hlen : data.length = 3 * w * h) (hb : ∀ b ∈ data, b < 256)
    (hi : 4 ≤ i) (hiw : i + 4 ≤ w) (hih : i + 4 ≤ h)
    (hj : 4 ≤ j) (hjw : j + 4 ≤ w) (hjh : j + 4 ≤ h) :
    blur_pixel { mWidth := w, mHeight := h, mData := data } i j
      = some { r := min (spec_windowSum { mWidth := w, mHeight := h, mData := data } i j 0 / area) 255
               g := min (spec_windowSum { mWidth := w, mHeight := h, mData := data } i j 1 / area) 255
               b := min (spec_windowSum { mWidth := w, mHeight := h, mData := data } i j 2 / area) 255 } := by
  have hin : ∀ x ∈ window, ∀ y ∈ window,
      sampleOffset { mWidth := w, mHeight := h, mData := data } i j x y + 2
        < (Image.mk w h data).mData.length := by
    intro x hx y hy
    obtain ⟨h1, h2⟩ := sampleOffset_interior w h data i j x y hw hh hi hiw hih hj hjw hjh hx hy
    rw [h1]
    simpa only [hlen] using h2
  have e0 := windowSum_interior w h data i j 0 hw hh hi hiw hih hj hjw hjh
  have e1 := windowSum_interior w h data i j 1 hw hh hi hiw hih hj hjw hjh
  have e2 := windowSum_interior w h data i j 2 hw hh hi hiw hih hj hjw hjh
  simp only [Nat.add_zero] at e0
  rw [blur_pixel, blur_sum_of_inBounds _ i j hb hin]
  simp only [Option.map_some', Pixel.fromArray, UVec3.divScalar, toByte_clamp, e0, e1, e2]

/-! ## C1: the window mean -/

theorem blur_sum_decoded (w h : Nat) (f : Nat → Nat) (i j : Nat) :
    blur_sum (Image.decoded w h f) i j = tab_sum w h (w * h * 3) f i j := by
  simp only [blur_sum, blur_sample, Image.operatorCall, Image.decoded,
    readPixel_tabulate, Image.get_width, Image.get_height, tab_sum, tab_sample]

set_option maxRecDepth 100000 in
/-- C1 at failing inputs, on the 16x16 image with columns 0..7 black and
columns 8..15 white. At the interior output pixel `(row 4, col 7)` all 64
samples lie in the buffer and the kernel accumulates the channel sums
`8 * 3 * 255 = 6120`, but it divides them by `area = 81` and writes
`(75, 75, 75)`, where the sum divided by `AREA = 64` is `(95, 95, 95)`. At
`(row 0, col 7)` the kernel's first sample lies outside the buffer, so it has
no defined result, where the sum over the clamped window divided by 64 is
`(95, 95, 95)`. -/
theorem C1_window_mean_fails :
    area = 81 ∧ spec_AREA = 64 ∧
    blur_sum split16 4 7 = some { s0 := 6120, s1 := 6120, s2 := 6120 } ∧
    blur_pixel split16 4 7 = some { r := 75, g := 75, b := 75 } ∧
    spec_blur_pixel split16 4 7 = { r := 95, g := 95, b := 95 } ∧
    sampleOffset split16 0 7 (-4) (-4) = 777 ∧
    split16.mData.length = 768 ∧
    blur_pixel split16 0 7 = none ∧
    spec_blur_pixel split16 0 7 = { r := 95, g := 95, b := 95 } := by
  refine ⟨by decide, by decide, ?_, ?_, ?_, by decide!, ?_, ?_, ?_⟩
  · rw [split16, blur_sum_decoded]; decide!
  · rw [split16, blur_pixel_decoded]; decide!
  · simp only [spec_blur_pixel, spec_windowSum, split16, spec_channel_decoded]; decide!
  · simp [split16, Image.decoded]
  · rw [split16, blur_pixel_decoded]; decide!
  · simp only [spec_blur_pixel, spec_windowSum, split16, spec_channel_decoded]; decide!

theorem blur_image_decoded (w h : Nat) (f : Nat → Nat) (out : Image) :
    blur_image (Image.decoded w h f) out = tab_image w h (w * h * 3) f out := by
  simp only [blur_image, blur_step, blur_pixel_decoded, tab_image, tab_step]
  rfl

/-! ## C2: constant images -/

set_option maxRecDepth 100000 in
/-- C2 at failing inputs. The solid image `(200, 100, 50)` of width 2 and
height 5 (every read of the kernel lies in the buffer) is blurred to
`(158, 79, 39)` at each of the seven pixels written; the last three pixels keep
the initial content of the output buffer. On the 1x1 image `(40, 80, 120)` and
at the corner of the solid 16x16 image the kernel reads outside the buffer; at
the interior pixel `(8, 8)` of the solid 16x16 image it writes
`(158, 79, 39)`. -/
theorem C2_constant_image_darkened :
    main (solid 2 5 200 100 50) (fun _ => 0)
      = some { mWidth := 2, mHeight := 5,
               mData := [158, 79, 39, 158, 79, 39, 158, 79, 39, 158, 79, 39, 158, 79, 39,
                         158, 79, 39, 158, 79, 39, 0, 0, 0, 0, 0, 0, 0, 0, 0] } ∧
    main (solid 1 1 40 80 120) (fun _ => 0) = none ∧
    blur_pixel (solid 16 16 200 100 50) 0 0 = none ∧
    blur_pixel (solid 16 16 200 100 50) 8 8 = some { r := 158, g := 79, b := 39 } := by
  refine ⟨?_, ?_, ?_, ?_⟩
  · rw [main, solid, blur_image_decoded]; decide!
  · rw [main, solid, blur_image_decoded]; decide!
  · rw [solid, blur_pixel_decoded]; decide!
  · rw [solid, blur_pixel_decoded]; decide!

/-! ## C3: boundary coordinates -/

set_option maxRecDepth 100000 in
/-- C3 at a failing input, the 8x8 gradient. For output index 0 and loop
variable `-4` the kernel samples coordinate 8 (the claim: 0), because `0 + -4`
wraps to `2 ^ 64 - 4` before the clamp; for output index 7 and loop variable 1
it samples coordinate 8 (the claim: 7), because the upper clamp bound is the
width, not the width minus one. The first sample of output `(0, 0)` is read at
byte offset 216 of a 192-byte buffer, so the kernel has no defined result
there, where the claim gives `(24, 24, 24)`. The buffer kernel of
`03_image_blur_buffers.cpp` clamps the same negative coordinate to 0. -/
theorem C3_clamp_to_edge_fails :
    clamp (addSizeInt 0 (-4)) 0 gradient8.get_width = 8 ∧
    spec_clampCoord ((0 : Int) + (-4)) gradient8.get_width = 0 ∧
    clamp (addSizeInt 7 1) 0 gradient8.get_width = 8 ∧
    spec_clampCoord ((7 : Int) + 1) gradient8.get_width = 7 ∧
    sampleOffset gradient8 0 0 (-4) (-4) = 216 ∧
    gradient8.mData.length = 192 ∧
    blur_pixel gradient8 0 0 = none ∧
    spec_blur_pixel gradient8 0 0 = { r := 24, g := 24, b := 24 } ∧
    Buffers.clampedDim 0 8 (-4) = 0 := by
  refine ⟨by decide!, by decide!, by decide!, by decide!, by decide!, ?_, ?_, ?_, by decide!⟩
  · simp [gradient8, Image.decoded]
  · rw [gradient8, blur_pixel_decoded]; decide!
  · simp only [spec_blur_pixel, spec_windowSum, gradient8, spec_channel_decoded]; decide!

/-! ## C4: accesses outside the buffer -/

set_option maxRecDepth 100000 in
/-- C4 at a failing input, the 1x1 image `(40, 80, 120)` with its 3-byte
buffer: the first sample of output `(0, 0)` is read at byte offset 6, so
`blur_image` has no defined result. On the write side, for width 2 and
height 1 the store of index `(1, 0)` goes to byte offset 6 of a 6-byte
buffer. -/
theorem C4_out_of_bounds_access :
    (solid 1 1 40 80 120).mData = [40, 80, 120] ∧
    sampleOffset (solid 1 1 40 80 120) 0 0 (-4) (-4) = 6 ∧
    (solid 1 1 40 80 120).operatorCall 1 1 = none ∧
    main (solid 1 1 40 80 120) (fun _ => 0) = none ∧
    byteOffset 2 1 0 = 6 ∧
    (Image.create 2 1 (fun _ => 0)).mData.length = 6 ∧
    (Image.create 2 1 (fun _ => 0)).setPixel { r := 1, g := 2, b := 3 } 1 0 = none := by
  refine ⟨by decide!, by decide!, by decide!, ?_, by decide!, by decide!, by decide!⟩
  rw [main, solid, blur_image_decoded]; decide!

/-! ## C5: the index pairs and the pixels written -/

set_option maxRecDepth 100000 in
/-- C5 at a failing input, width 2 and height 5 (every read of the kernel
lies in the 30-byte buffer). The index pairs `(0, 2)` and `(1, 0)` are both
stored at byte offset 6 (pixel 2), no index pair is stored at byte offset 21
(pixel 7), and the result depends on the initial content of the output
buffer: pixels 7, 8, 9 keep it. -/
theorem C5_writes_not_bijective :
    byteOffset 2 0 2 = 6 ∧ byteOffset 2 1 0 = 6 ∧
    (∀ i < 2, ∀ j < 5, byteOffset 2 i j ≠ 21) ∧
    main (solid 2 5 255 255 255) (fun _ => 0)
      = some { mWidth := 2, mHeight := 5,
               mData := [201, 201, 201, 201, 201, 201, 201, 201, 201, 201, 201, 201, 201, 201,
                         201, 201, 201, 201, 201, 201, 201, 0, 0, 0, 0, 0, 0, 0, 0, 0] } ∧
    main (solid 2 5 255 255 255) (fun _ => 7)
      = some { mWidth := 2, mHeight := 5,
               mData := [201, 201, 201, 201, 201, 201, 201, 201, 201, 201, 201, 201, 201, 201,
                         201, 201, 201, 201, 201, 201, 201, 7, 7, 7, 7, 7, 7, 7, 7, 7] } := by
  refine ⟨by decide!, by decide!, by decide!, ?_, ?_⟩
  · rw [main, solid, blur_image_decoded]; decide!
  · rw [main, solid, blur_image_decoded]; decide!

/-! ## C6: impulse response -/

set_option maxRecDepth 100000 in
theorem impulse16_table :
    ∀ i < 13, ∀ j < 13, 4 ≤ i → 4 ≤ j →
      tab_pixel 16 16 (16 * 16 * 3) (fun k => if k / 3 = 16 * 8 + 8 then 255 else 0) i j
        = some (if 5 ≤ i ∧ 5 ≤ j then { r := 3, g := 3, b := 3 }
                else { r := 0, g := 0, b := 0 }) := by
  decide!

/-- C6 (amended): for the 16x16 impulse image, at every output pixel whose 64
samples lie in the buffer (row and column in `4 .. 12`) the host kernel
computes `(3, 3, 3)` when the row and the column are both in `5 .. 12`, and
`(0, 0, 0)` otherwise. -/
theorem C6_impulse_interior (i j : Nat) (hi : 4 ≤ i) (hi12 : i ≤ 12) (hj : 4 ≤ j)
    (hj12 : j ≤ 12) :
    blur_pixel impulse16 i j
      = some (if 5 ≤ i ∧ 5 ≤ j then { r := 3, g := 3, b := 3 }
              else { r := 0, g := 0, b := 0 }) := by
  rw [impulse16, blur_pixel_decoded]
  exact impulse16_table i (by omega) j (by omega) hi hj

/-- C6 (amended) at the impulse itself, `(row 8, col 8)`. -/
theorem C6_impulse_interior_witness :
    (4 ≤ 8 ∧ 8 ≤ 12 ∧ 4 ≤ 8 ∧ 8 ≤ 12) ∧
    blur_pixel impulse16 8 8 = some { r := 3, g := 3, b := 3 } :=
  ⟨by decide, C6_impulse_interior 8 8 (by decide) (by decide) (by decide) (by decide)⟩

set_option maxRecDepth 100000 in
/-- C6 fails as stated: at `(row 12, col 12)`, outside rows and columns
`5 .. 11`, the kernel computes `(3, 3, 3)`, not `(0, 0, 0)`; the window
`-4 .. 3` of row 12 starts at row 8. The stencil as the specification words it
gives `(3, 3, 3)` there too. -/
theorem C6_counterexample :
    blur_pixel impulse16 12 12 = some { r := 3, g := 3, b := 3 } ∧
    spec_blur_pixel impulse16 12 12 = { r := 3, g := 3, b := 3 } := by
  refine ⟨?_, ?_⟩
  · rw [impulse16, blur_pixel_decoded]; decide!
  · simp only [spec_blur_pixel, spec_windowSum, impulse16, spec_channel_decoded]; decide!

/-! ## C7: the three kernels -/

set_option maxRecDepth 100000 in
/-- C7 at a failing input, the image of width 4 and height 6 whose first pixel
is white and all others black. For output index `(0, 0)` the host kernel and
the USM kernel compute `(3, 3, 3)`: their negative coordinates wrap and are
clamped to the upper bound, so the white pixel is sampled once. The buffer
kernel computes `(78, 78, 78)`: its negative coordinates are clamped to 0, so
the white pixel is sampled 25 times. On the whole image the host program has a
defined result (pixel 0 is `(3, 3, 3)`), the buffer program has none (a later
work item reads outside the buffer). -/
theorem C7_kernels_disagree :
    blur_pixel corner4x6 0 0 = some { r := 3, g := 3, b := 3 } ∧
    Usm.blur_pixel { mWidth := 4, mHeight := 6, mData := corner4x6.mData } 0 0
      = some { r := 3, g := 3, b := 3 } ∧
    Buffers.blur_pixel { range0 := 4, range1 := 6, data := corner4x6.mData } 0 0
      = some { r := 78, g := 78, b := 78 } ∧
    main corner4x6 (fun _ => 0)
      = some { mWidth := 4, mHeight := 6,
               mData := List.replicate 51 3 ++ List.replicate 21 0 } ∧
    Buffers.main corner4x6 (fun _ => 0) = none := by
  refine ⟨?_, by decide!, by decide!, ?_, by decide!⟩
  · rw [corner4x6, blur_pixel_decoded]; decide!
  · rw [main, corner4x6, blur_image_decoded]; decide!

/-! ## C9: channel independence -/

theorem readPixel_shift (a b c : Nat) (d : List Nat) (off : Nat) :
    readPixel (a :: b :: c :: d) (off + 3) = readPixel d off := by
  simp [readPixel, List.getElem?_cons_succ, show off + 3 = (off + 2) + 1 from rfl,
    show off + 3 + 1 = (off + 3) + 1 from rfl, show off + 3 + 2 = (off + 4) + 1 from rfl,
    show off + 4 = (off + 3) + 1 from rfl]

theorem readPixel_short (d : List Nat) (off : Nat) (h : d.length ≤ off + 2) :
    readPixel d off = none := by
  unfold readPixel
  have h2 : d[off + 2]? = none := List.getElem?_eq_none_iff.mpr h
  simp only [h2]
  cases d[off]? <;> cases d[off + 1]? <;> rfl

theorem readPixel_permBytes (σ : Equiv.Perm (Fin 3)) :
    ∀ (q : Nat) (d : List Nat),
      readPixel (permBytes σ d) (3 * q) = (readPixel d (3 * q)).map (permPixel σ)
  | _, [] => by simp [permBytes, readPixel]
  | q, [a] => by
    rw [permBytes, readPixel_short [a] (3 * q) (by simp)]
    · rfl
    · intro _ _ _ _ h; cases h
  | q, [a, b] => by
    rw [permBytes, readPixel_short [a, b] (3 * q) (by simp)]
    · rfl
    · intro _ _ _ _ h; cases h
  | 0, r :: g :: b :: rest => by
    simp [permBytes, readPixel, permPixel]
  | q + 1, r :: g :: b :: rest => by
    have e : 3 * (q + 1) = 3 * q + 3 := by ring
    rw [permBytes, e, readPixel_shift, readPixel_shift]
    exact readPixel_permBytes σ q rest

theorem length_permBytes (σ : Equiv.Perm (Fin 3)) :
    ∀ d : List Nat, (permBytes σ d).length = d.length
  | [] => by simp [permBytes]
  | [a] => by rw [permBytes]; intro _ _ _ _ h; cases h
  | [a, b] => by rw [permBytes]; intro _ _ _ _ h; cases h
  | r :: g :: b :: rest => by
    rw [permBytes]
    simp only [List.length_cons, length_permBytes σ rest]

theorem writePixel_shift (a b c : Nat) (d : List Nat) (off : Nat) (p : Pixel) :
    writePixel (a :: b :: c :: d) (off + 3) p
      = (writePixel d off p).map fun t => a :: b :: c :: t := by
  unfold writePixel
  by_cases h : off + 2 < d.length
  · have h3 : off + 3 + 2 < (a :: b :: c :: d).length := by simp only [List.length_cons]; omega
    simp only [h, h3, if_true, Option.map_some']
    rfl
  · have h3 : ¬ off + 3 + 2 < (a :: b :: c :: d).length := by
      simp only [List.length_cons]; omega
    simp only [h, h3, if_false, Option.map_none']

theorem writePixel_permBytes (σ : Equiv.Perm (Fin 3)) (p : Pixel) :
    ∀ (q : Nat) (d : List Nat),
      writePixel (permBytes σ d) (3 * q) (permPixel σ p)
        = (writePixel d (3 * q) p).map (permBytes σ)
  | _, [] => by simp [permBytes, writePixel]
  | q, [a] => by
    rw [permBytes]
    · simp [writePixel]
    · intro _ _ _ _ h; cases h
  | q, [a, b] => by
    rw [permBytes]
    · simp [writePixel]
    · intro _ _ _ _ h; cases h
  | 0, r :: g :: b :: rest => by
    simp [permBytes, writePixel, permPixel, Pixel.getR, Pixel.getG, Pixel.getB]
  | q + 1, r :: g :: b :: rest => by
    have e : 3 * (q + 1) = 3 * q + 3 := by ring
    rw [permBytes, e, writePixel_shift, writePixel_shift, writePixel_permBytes σ p q rest]
    cases writePixel rest (3 * q) p with
    | none => rfl
    | some t => simp [permBytes]

theorem permVec_zero (σ : Equiv.Perm (Fin 3)) : permVec σ UVec3.zero = UVec3.zero := by
  simp [permVec, UVec3.chan, UVec3.zero]

theorem fromArray_permVec (σ : Equiv.Perm (Fin 3)) (v : UVec3) (a : Nat) :
    Pixel.fromArray ((permVec σ v).divScalar a)
      = permPixel σ (Pixel.fromArray (v.divScalar a)) := by
  simp only [Pixel.fromArray, UVec3.divScalar, permVec, permPixel, UVec3.chan, Pixel.chan,
    Pixel.mk.injEq]
  refine ⟨?_, ?_, ?_⟩ <;> split_ifs <;> rfl

theorem clamp_le (v hi : Nat) : clamp v 0 hi ≤ hi := by
  rw [clamp_zero_lo]; exact Nat.min_le_right v hi

/-- For `int` dimensions the pointer offset of coordinates up to the
dimension does not wrap and is three times a pixel index. -/
theorem byteOffset_int (w x y bx cy : Nat) (hw : w < 2 ^ 31) (hx : x ≤ bx) (hbx : bx < 2 ^ 31)
    (hy : y ≤ cy) (hcy : cy < 2 ^ 31) : byteOffset w x y = 3 * (x * w + y) := by
  have hS : SIZE_MOD = 2 ^ 64 := rfl
  apply byteOffset_eq
  · rw [hS]
    have h1 : w * x ≤ 2 ^ 31 * 2 ^ 31 :=
      Nat.mul_le_mul (Nat.le_of_lt hw) (by omega)
    omega
  · rw [hS]; omega

theorem blur_sample_perm (σ : Equiv.Perm (Fin 3)) (inp : Image) (i j : Nat) (s : UVec3)
    (x y : Int) (hw : inp.mWidth < 2 ^ 31) (hh : inp.mHeight < 2 ^ 31) :
    blur_sample (permImage σ inp) i j (permVec σ s) x y
      = (blur_sample inp i j s x y).map (permVec σ) := by
  have hoff := byteOffset_int inp.mWidth (clamp (addSizeInt i x) 0 inp.mWidth)
    (clamp (addSizeInt j y) 0 inp.mHeight) inp.mWidth inp.mHeight hw (clamp_le _ _) hw
    (clamp_le _ _) hh
  simp only [blur_sample, Image.operatorCall, permImage, Image.get_width, Image.get_height,
    hoff, readPixel_permBytes]
  cases readPixel inp.mData
      (3 * (clamp (addSizeInt i x) 0 inp.mWidth * inp.mWidth
        + clamp (addSizeInt j y) 0 inp.mHeight)) with
  | none => rfl
  | some p =>
    simp only [Option.map_some', Option.bind_eq_bind, Option.some_bind, Option.pure_def,
      Option.some.injEq, permVec, permPixel, UVec3.chan, Pixel.chan, Pixel.getR, Pixel.getG,
      Pixel.getB, UVec3.mk.injEq]
    refine ⟨?_, ?_, ?_⟩ <;> split_ifs <;> rfl

/-- A loop whose step commutes with a map of the state commutes with it as
a whole, for states satisfying an invariant of the loop. -/
theorem foldlM_map_of_inv {S T A : Type} (φ : S → T) (P : S → Prop)
    (f : S → A → Option S) (g : T → A → Option T) :
    ∀ (l : List A),
      (∀ a ∈ l, ∀ s, P s → g (φ s) a = (f s a).map φ) →
      (∀ a ∈ l, ∀ s t, P s → f s a = some t → P t) →
      ∀ s, P s → l.foldlM g (φ s) = (l.foldlM f s).map φ
  | [], _, _, s, _ => by simp
  | a :: l, hstep, hinv, s, hs => by
    simp only [List.foldlM_cons, Option.bind_eq_bind, hstep a (List.mem_cons_self a l) s hs]
    cases hfa : f s a with
    | none => rfl
    | some t =>
      simp only [Option.map_some', Option.some_bind]
      exact foldlM_map_of_inv φ P f g l
        (fun b hb => hstep b (List.mem_cons_of_mem a hb))
        (fun b hb => hinv b (List.mem_cons_of_mem a hb))
        t (hinv a (List.mem_cons_self a l) s t hs hfa)

/-- A loop preserves an invariant that each of its steps preserves. -/
theorem foldlM_preserves {S A : Type} (P : S → Prop) (f : S → A → Option S) :
    ∀ (l : List A), (∀ a ∈ l, ∀ s t, P s → f s a = some t → P t) →
      ∀ s t, P s → l.foldlM f s = some t → P t
  | [], _, s, t, hs, h => by
    simp only [List.foldlM_nil, Option.pure_def, Option.some.injEq] at h
    exact h ▸ hs
  | a :: l, hinv, s, t, hs, h => by
    simp only [List.foldlM_cons, Option.bind_eq_bind] at h
    cases hfa : f s a with
    | none => rw [hfa] at h; cases h
    | some u =>
      rw [hfa, Option.some_bind] at h
      exact foldlM_preserves P f l (fun b hb => hinv b (List.mem_cons_of_mem a hb)) u t
        (hinv a (List.mem_cons_self a l) s u hs hfa) h

theorem blur_pixel_perm (σ : Equiv.Perm (Fin 3)) (inp : Image) (i j : Nat)
    (hw : inp.mWidth < 2 ^ 31) (hh : inp.mHeight < 2 ^ 31) :
    blur_pixel (permImage σ inp) i j = (blur_pixel inp i j).map (permPixel σ) := by
  have inner : ∀ (x : Int) (s : UVec3),
      window.foldlM (fun acc y => blur_sample (permImage σ inp) i j acc x y) (permVec σ s)
        = (window.foldlM (fun acc y => blur_sample inp i j acc x y) s).map (permVec σ) := by
    intro x s
    exact foldlM_map_of_inv (permVec σ) (fun _ => True)
      (fun acc y => blur_sample inp i j acc x y)
      (fun acc y => blur_sample (permImage σ inp) i j acc x y) window
      (fun y _ t _ => blur_sample_perm σ inp i j t x y hw hh)
      (fun _ _ _ _ _ _ => trivial) s trivial
  have outer : blur_sum (permImage σ inp) i j = (blur_sum inp i j).map (permVec σ) := by
    have key := foldlM_map_of_inv (permVec σ) (fun _ => True)
      (fun sum x => window.foldlM (fun acc y => blur_sample inp i j acc x y) sum)
      (fun sum x => window.foldlM (fun acc y => blur_sample (permImage σ inp) i j acc x y) sum)
      window (fun x _ t _ => inner x t) (fun _ _ _ _ _ _ => trivial) UVec3.zero trivial
    rw [permVec_zero] at key
    exact key
  unfold blur_pixel
  rw [outer]
  cases blur_sum inp i j with
  | none => rfl
  | some v => simp only [Option.map_some', fromArray_permVec]

theorem setPixel_mWidth (out t : Image) (p : Pixel) (i j : Nat)
    (h : out.setPixel p i j = some t) : t.mWidth = out.mWidth := by
  unfold Image.setPixel at h
  cases hw : writePixel out.mData (byteOffset out.mWidth i j) p with
  | none => rw [hw] at h; cases h
  | some d =>
    rw [hw, Option.map_some', Option.some.injEq] at h
    rw [← h]

theorem blur_step_mWidth (inp out t : Image) (i j : Nat)
    (h : blur_step inp out i j = some t) : t.mWidth = out.mWidth := by
  unfold blur_step at h
  cases hp : blur_pixel inp i j with
  | none => rw [hp] at h; cases h
  | some p =>
    rw [hp] at h
    exact setPixel_mWidth out t p i j h

theorem setPixel_perm (σ : Equiv.Perm (Fin 3)) (out : Image) (p : Pixel) (i j : Nat)
    (hw : out.mWidth < 2 ^ 31) (hi : i < 2 ^ 31) (hj : j < 2 ^ 31) :
    (permImage σ out).setPixel (permPixel σ p) i j
      = (out.setPixel p i j).map (permImage σ) := by
  have hoff := byteOffset_int out.mWidth i j i j hw (Nat.le_refl i) hi (Nat.le_refl j) hj
  simp only [Image.setPixel, permImage, hoff, writePixel_permBytes]
  cases writePixel out.mData (3 * (i * out.mWidth + j)) p with
  | none => rfl
  | some d => rfl

theorem blur_step_perm (σ : Equiv.Perm (Fin 3)) (inp out : Image) (i j : Nat)
    (hw : inp.mWidth < 2 ^ 31) (hh : inp.mHeight < 2 ^ 31) (ho : out.mWidth < 2 ^ 31)
    (hi : i < 2 ^ 31) (hj : j < 2 ^ 31) :
    blur_step (permImage σ inp) (permImage σ out) i j
      = (blur_step inp out i j).map (permImage σ) := by
  unfold blur_step
  rw [blur_pixel_perm σ inp i j hw hh]
  cases blur_pixel inp i j with
  | none => rfl
  | some p =>
    simp only [Option.map_some', Option.bind_eq_bind, Option.some_bind]
    exact setPixel_perm σ out p i j ho hi hj

theorem blur_image_perm (σ : Equiv.Perm (Fin 3)) (inp out : Image)
    (hw : inp.mWidth < 2 ^ 31) (hh : inp.mHeight < 2 ^ 31) (ho : out.mWidth < 2 ^ 31) :
    blur_image (permImage σ inp) (permImage σ out)
      = (blur_image inp out).map (permImage σ) := by
  have rowInv : ∀ i, ∀ j ∈ List.range inp.mHeight, ∀ s t : Image,
      s.mWidth = out.mWidth → blur_step inp s i j = some t → t.mWidth = out.mWidth := by
    intro i j _ s t hs h
    rw [blur_step_mWidth inp s t i j h, hs]
  have row : ∀ i ∈ List.range inp.mWidth, ∀ s : Image, s.mWidth = out.mWidth →
      (List.range inp.mHeight).foldlM
          (fun acc j => blur_step (permImage σ inp) acc i j) (permImage σ s)
        = ((List.range inp.mHeight).foldlM (fun acc j => blur_step inp acc i j) s).map
            (permImage σ) := by
    intro i hi s hs
    rw [List.mem_range] at hi
    refine foldlM_map_of_inv (permImage σ) (fun u => u.mWidth = out.mWidth)
      (fun acc j => blur_step inp acc i j)
      (fun acc j => blur_step (permImage σ inp) acc i j) (List.range inp.mHeight)
      ?_ (rowInv i) s hs
    intro j hj u hu
    rw [List.mem_range] at hj
    exact blur_step_perm σ inp u i j hw hh (by rw [hu]; exact ho) (by omega) (by omega)
  unfold blur_image
  exact foldlM_map_of_inv (permImage σ) (fun u => u.mWidth = out.mWidth)
    (fun o i => (List.range inp.mHeight).foldlM (fun acc j => blur_step inp acc i j) o)
    (fun o i => (List.range inp.mHeight).foldlM
      (fun acc j => blur_step (permImage σ inp) acc i j) o)
    (List.range inp.mWidth) row
    (fun i _ s t hs h =>
      foldlM_preserves (fun u => u.mWidth = out.mWidth)
        (fun acc j => blur_step inp acc i j) (List.range inp.mHeight) (rowInv i) s t hs h)
    out rfl

set_option maxRecDepth 100000 in
theorem permImage_solid_2x5 :
    permImage (Equiv.swap 0 2) (solid 2 5 200 100 50) = solid 2 5 50 100 200 := by
  decide!

set_option maxRecDepth 100000 in
/-- C9 at a failing input: the solid image `(200, 100, 50)` of width 2 and
height 5 (every read of the kernel lies in the buffer), the exchange of R and
B, and a fresh output buffer whose byte `k` is `k`. Exchanging the channels of
the input and then running `main` leaves pixels 7, 8, 9 of the output at their
initial content `(21, 22, 23)`, `(24, 25, 26)`, `(27, 28, 29)`, because the
loops never store to them; running `main` and then exchanging the channels of
every output pixel gives `(23, 22, 21)`, `(26, 25, 24)`, `(29, 28, 27)` there.
The seven pixels the loops do store to agree, `(39, 79, 158)`. -/
theorem C9_channel_independence_fails :
    main (permImage (Equiv.swap 0 2) (solid 2 5 200 100 50)) (fun k => k)
      = some { mWidth := 2, mHeight := 5,
               mData := [39, 79, 158, 39, 79, 158, 39, 79, 158, 39, 79, 158, 39, 79, 158,
                         39, 79, 158, 39, 79, 158, 21, 22, 23, 24, 25, 26, 27, 28, 29] } ∧
    (main (solid 2 5 200 100 50) (fun k => k)).map (permImage (Equiv.swap 0 2))
      = some { mWidth := 2, mHeight := 5,
               mData := [39, 79, 158, 39, 79, 158, 39, 79, 158, 39, 79, 158, 39, 79, 158,
                         39, 79, 158, 39, 79, 158, 23, 22, 21, 26, 25, 24, 29, 28, 27] } ∧
    main (permImage (Equiv.swap 0 2) (solid 2 5 200 100 50)) (fun k => k)
      ≠ (main (solid 2 5 200 100 50) (fun k => k)).map (permImage (Equiv.swap 0 2)) := by
  have h1 : main (permImage (Equiv.swap 0 2) (solid 2 5 200 100 50)) (fun k => k)
      = some { mWidth := 2, mHeight := 5,
               mData := [39, 79, 158, 39, 79, 158, 39, 79, 158, 39, 79, 158, 39, 79, 158,
                         39, 79, 158, 39, 79, 158, 21, 22, 23, 24, 25, 26, 27, 28, 29] } := by
    rw [permImage_solid_2x5, main, solid, blur_image_decoded]; decide!
  have h2 : (main (solid 2 5 200 100 50) (fun k => k)).map (permImage (Equiv.swap 0 2))
      = some { mWidth := 2, mHeight := 5,
               mData := [39, 79, 158, 39, 79, 158, 39, 79, 158, 39, 79, 158, 39, 79, 158,
                         39, 79, 158, 39, 79, 158, 23, 22, 21, 26, 25, 24, 29, 28, 27] } := by
    rw [main, solid, blur_image_decoded]; decide!
  refine ⟨h1, h2, ?_⟩
  rw [h1, h2]
  decide

/-! ## C15: set/get round trip and frame -/

theorem readPixel_congr (d e : List Nat) (off : Nat) (h0 : d[off]? = e[off]?)
    (h1 : d[off + 1]? = e[off + 1]?) (h2 : d[off + 2]? = e[off + 2]?) :
    readPixel d off = readPixel e off := by
  unfold readPixel
  rw [h0, h1, h2]

/-- Distinct in-range coordinates have distinct row-major pixel indices. -/
theorem rowMajor_ne (w x y x' y' : Nat) (hy : y < w) (hy' : y' < w)
    (hne : (x', y') ≠ (x, y)) : w * x' + y' ≠ w * x + y := by
  intro heq
  apply hne
  rcases Nat.lt_trichotomy x' x with hlt | heqx | hgt
  · have h1 : w * (x' + 1) ≤ w * x := Nat.mul_le_mul_left w hlt
    rw [Nat.mul_succ] at h1
    omega
  · subst heqx
    have : y' = y := by omega
    rw [this]
  · have h1 : w * (x + 1) ≤ w * x' := Nat.mul_le_mul_left w hgt
    rw [Nat.mul_succ] at h1
    omega

/-- The round trip and the frame on the raw buffer, for two offsets that are
three times a pixel index. -/
theorem writePixel_read (data : List Nat) (q : Nat) (p : Pixel) (h : 3 * q + 2 < data.length) :
    ∃ d, writePixel data (3 * q) p = some d ∧ d.length = data.length ∧
      readPixel d (3 * q) = some p ∧
      (∀ k, (k < 3 * q ∨ 3 * q + 2 < k) → d[k]? = data[k]?) ∧
      ∀ q', q' ≠ q → readPixel d (3 * q') = readPixel data (3 * q') := by
  obtain ⟨d, hd, hlen, h0, h1, h2, hframe⟩ := writePixel_spec data (3 * q) p h
  refine ⟨d, hd, hlen, ?_, ?_, ?_⟩
  · unfold readPixel
    rw [h0, h1, h2]
    rfl
  · intro k hk
    exact hframe k (by omega) (by omega) (by omega)
  · intro q' hq
    exact readPixel_congr d data (3 * q')
      (hframe _ (by omega) (by omega) (by omega))
      (hframe _ (by omega) (by omega) (by omega))
      (hframe _ (by omega) (by omega) (by omega))

/-- C15: in an image of width `w` and height `h` with a buffer of `3 * w * h`
bytes (a count that fits a `size_t`), for every in-range `(x, y)` (`x < h`,
`y < w`) and every pixel `p`, `setPixel(p, x, y)` of `Image` and of
`DeviceImage` succeeds and keeps the dimensions and the buffer length;
afterwards `operator()(x, y)` returns `p`, every byte outside offsets
`3 * (w * x + y) .. 3 * (w * x + y) + 2` is unchanged, and `operator()(x', y')`
is unchanged for every other in-range `(x', y')`. -/
theorem C15_set_get_frame (w h : Nat) (data : List Nat) (p : Pixel) (x y : Nat)
    (hlen : data.length = 3 * w * h) (hsz : 3 * w * h < SIZE_MOD)
    (hx : x < h) (hy : y < w) :
    ∃ d, Image.setPixel { mWidth := w, mHeight := h, mData := data } p x y
          = some { mWidth := w, mHeight := h, mData := d } ∧
        DeviceImage.setPixel { mWidth := w, mHeight := h, mData := data } p x y
          = some { mWidth := w, mHeight := h, mData := d } ∧
        d.length = data.length ∧
        Image.operatorCall { mWidth := w, mHeight := h, mData := d } x y = some p ∧
        DeviceImage.operatorCall { mWidth := w, mHeight := h, mData := d } x y = some p ∧
        (∀ k, (k < 3 * (w * x + y) ∨ 3 * (w * x + y) + 2 < k) → d[k]? = data[k]?) ∧
        ∀ x' y', x' < h → y' < w → (x', y') ≠ (x, y) →
          Image.operatorCall { mWidth := w, mHeight := h, mData := d } x' y'
            = Image.operatorCall { mWidth := w, mHeight := h, mData := data } x' y' ∧
          DeviceImage.operatorCall { mWidth := w, mHeight := h, mData := d } x' y'
            = DeviceImage.operatorCall { mWidth := w, mHeight := h, mData := data } x' y' := by
  obtain ⟨hoff, hin⟩ := byteOffset_inRange w h x y hsz hx hy
  have hoff2 : byteOffset w x y = 3 * (w * x + y) := by rw [hoff, Nat.mul_comm x w]
  have hin2 : 3 * (w * x + y) + 2 < data.length := by
    rw [hlen, Nat.mul_comm w x]; exact hin
  obtain ⟨d, hd, hdlen, hget, hframe, hother⟩ := writePixel_read data (w * x + y) p hin2
  refine ⟨d, ?_, ?_, hdlen, ?_, ?_, hframe, ?_⟩
  · simp only [Image.setPixel, hoff2, hd, Option.map_some']
  · simp only [DeviceImage.setPixel, hoff2, hd, Option.map_some']
  · simp only [Image.operatorCall, hoff2, hget]
  · simp only [DeviceImage.operatorCall, hoff2, hget]
  · intro x' y' hx' hy' hne
    obtain ⟨hoff', _⟩ := byteOffset_inRange w h x' y' hsz hx' hy'
    have hoff2' : byteOffset w x' y' = 3 * (w * x' + y') := by rw [hoff', Nat.mul_comm x' w]
    have hq := hother (w * x' + y') (rowMajor_ne w x y x' y' hy hy' hne)
    constructor
    · simp only [Image.operatorCall, hoff2', hq]
    · simp only [DeviceImage.operatorCall, hoff2', hq]

/-- C15 at a concrete input: the 3x2 image with bytes `0, 1, ..., 17`; after
`setPixel((70, 80, 90), 1, 2)` the pixel `(1, 2)` reads `(70, 80, 90)` and the
pixel `(0, 1)` still reads `(3, 4, 5)`. -/
theorem C15_set_get_frame_witness :
    ((List.range 18).length = 3 * 3 * 2 ∧ 3 * 3 * 2 < SIZE_MOD ∧ 1 < 2 ∧ 2 < 3) ∧
    ∃ d, Image.setPixel { mWidth := 3, mHeight := 2, mData := List.range 18 }
            { r := 70, g := 80, b := 90 } 1 2
          = some { mWidth := 3, mHeight := 2, mData := d } ∧
        Image.operatorCall { mWidth := 3, mHeight := 2, mData := d } 1 2
          = some { r := 70, g := 80, b := 90 } ∧
        Image.operatorCall { mWidth := 3, mHeight := 2, mData := d } 0 1
          = some { r := 3, g := 4, b := 5 } := by
  refine ⟨by decide, ?_⟩
  obtain ⟨d, hset, _, _, hget, _, _, hother⟩ :=
    C15_set_get_frame 3 2 (List.range 18) { r := 70, g := 80, b := 90 } 1 2
      (by decide) (by decide) (by decide) (by decide)
  exact ⟨d, hset, hget, ((hother 0 1 (by decide) (by decide) (by decide)).1).trans (by decide)⟩

/-! ## C11: dimensional closure -/

/-- The call `setPixel` keeps the dimensions and the buffer length. -/
theorem setPixel_shape (out t : Image) (p : Pixel) (i j : Nat)
    (h : out.setPixel p i j = some t) :
    t.mWidth = out.mWidth ∧ t.mHeight = out.mHeight ∧ t.mData.length = out.mData.length := by
  unfold Image.setPixel writePixel at h
  by_cases hlt : byteOffset out.mWidth i j + 2 < out.mData.length
  · simp only [hlt, if_true, Option.map_some', Option.some.injEq] at h
    rw [← h]
    simp
  · simp only [hlt, if_false, Option.map_none'] at h
    cases h

theorem blur_step_shape (inp out t : Image) (i j : Nat)
    (h : blur_step inp out i j = some t) :
    t.mWidth = out.mWidth ∧ t.mHeight = out.mHeight ∧ t.mData.length = out.mData.length := by
  unfold blur_step at h
  cases hp : blur_pixel inp i j with
  | none => rw [hp] at h; cases h
  | some p =>
    rw [hp] at h
    exact setPixel_shape out t p i j h

/-- The host `blur_image` changes neither the dimensions nor the buffer length
of the output image. -/
theorem blur_image_shape (inp out t : Image) (h : blur_image inp out = some t) :
    t.mWidth = out.mWidth ∧ t.mHeight = out.mHeight ∧ t.mData.length = out.mData.length := by
  have stepInv : ∀ i, ∀ j ∈ List.range inp.get_height, ∀ s u : Image,
      (s.mWidth = out.mWidth ∧ s.mHeight = out.mHeight ∧ s.mData.length = out.mData.length) →
      blur_step inp s i j = some u →
      (u.mWidth = out.mWidth ∧ u.mHeight = out.mHeight ∧ u.mData.length = out.mData.length) := by
    intro i j _ s u hs hu
    obtain ⟨a, b, c⟩ := blur_step_shape inp s u i j hu
    exact ⟨a.trans hs.1, b.trans hs.2.1, c.trans hs.2.2⟩
  unfold blur_image at h
  exact foldlM_preserves
    (fun u : Image =>
      u.mWidth = out.mWidth ∧ u.mHeight = out.mHeight ∧ u.mData.length = out.mData.length)
    (fun o i => (List.range inp.get_height).foldlM (fun acc j => blur_step inp acc i j) o)
    (List.range inp.get_width)
    (fun i _ s u hs hu =>
      foldlM_preserves _ (fun acc j => blur_step inp acc i j) (List.range inp.get_height)
        (stepInv i) s u hs hu)
    out t ⟨rfl, rfl, rfl⟩ h

/-- C11: for every input image (dimensions of type `int`), the output image
that `main` allocates has the width and the height of the input and a buffer
of exactly `3 * width * height` bytes, and every image that `blur_image`
returns for it still has that width, that height and that buffer length. -/
theorem C11_dimensional_closure (inImg : Image) (fresh : Nat → Nat)
    (hw : inImg.mWidth < 2 ^ 31) (hh : inImg.mHeight < 2 ^ 31) :
    ((Image.create inImg.get_width inImg.get_height fresh).mWidth = inImg.mWidth ∧
      (Image.create inImg.get_width inImg.get_height fresh).mHeight = inImg.mHeight ∧
      (Image.create inImg.get_width inImg.get_height fresh).mData.length
        = 3 * inImg.mWidth * inImg.mHeight) ∧
    ∀ out, main inImg fresh = some out →
      out.mWidth = inImg.mWidth ∧ out.mHeight = inImg.mHeight ∧
      out.mData.length = 3 * inImg.mWidth * inImg.mHeight := by
  have hS : SIZE_MOD = 2 ^ 64 := rfl
  have hlen : (Image.create inImg.get_width inImg.get_height fresh).mData.length
      = 3 * inImg.mWidth * inImg.mHeight := by
    have h1 : inImg.mWidth * inImg.mHeight ≤ 2 ^ 31 * 2 ^ 31 :=
      Nat.mul_le_mul (Nat.le_of_lt hw) (Nat.le_of_lt hh)
    have h2 : inImg.mWidth * inImg.mHeight * 3 < SIZE_MOD := by rw [hS]; omega
    simp only [Image.create, Image.get_width, Image.get_height, List.length_map,
      List.length_range, Nat.mod_eq_of_lt h2]
    ring
  refine ⟨⟨rfl, rfl, hlen⟩, ?_⟩
  intro out hout
  obtain ⟨a, b, c⟩ := blur_image_shape inImg _ out hout
  exact ⟨a, b, c.trans hlen⟩

set_option maxRecDepth 100000 in
theorem main_white_2x5 :
    main (solid 2 5 255 255 255) (fun _ => 0)
      = some { mWidth := 2, mHeight := 5,
               mData := List.replicate 21 201 ++ List.replicate 9 0 } := by
  rw [main, solid, blur_image_decoded]; decide!

/-- C11 on the white image of width 2 and height 5, for which `blur_image`
returns: the output image has width 2, height 5 and 30 bytes. -/
theorem C11_dimensional_closure_witness :
    ((solid 2 5 255 255 255).mWidth < 2 ^ 31 ∧ (solid 2 5 255 255 255).mHeight < 2 ^ 31) ∧
    ∃ out, main (solid 2 5 255 255 255) (fun _ => 0) = some out ∧
      out.mWidth = 2 ∧ out.mHeight = 5 ∧ out.mData.length = 30 := by
  have h1 : (solid 2 5 255 255 255).mWidth < 2 ^ 31 := by decide
  have h2 : (solid 2 5 255 255 255).mHeight < 2 ^ 31 := by decide
  refine ⟨⟨h1, h2⟩, _, main_white_2x5, ?_⟩
  exact (C11_dimensional_closure (solid 2 5 255 255 255) (fun _ => 0) h1 h2).2 _ main_white_2x5

/-! ## C13 and C14: the divisor and the size of the sums -/

theorem window_map_sum_le (f : Int → Nat) (c : Nat) (hf : ∀ y ∈ window, f y ≤ c) :
    (window.map f).sum ≤ 8 * c := by
  have gen : ∀ l : List Int, (∀ y ∈ l, f y ≤ c) → (l.map f).sum ≤ l.length * c := by
    intro l
    induction l with
    | nil => intro _; simp
    | cons a l ih =>
      intro hl
      have ha := hl a (List.mem_cons_self a l)
      have hr := ih (fun y hy => hl y (List.mem_cons_of_mem a hy))
      simp only [List.map_cons, List.sum_cons, List.length_cons, Nat.succ_mul]
      omega
  have h8 := gen window hf
  rw [window_length] at h8
  exact h8

theorem window_map_sum_const (f : Int → Nat) (c : Nat) (hf : ∀ y ∈ window, f y = c) :
    (window.map f).sum = 8 * c := by
  have gen : ∀ l : List Int, (∀ y ∈ l, f y = c) → (l.map f).sum = l.length * c := by
    intro l
    induction l with
    | nil => intro _; simp
    | cons a l ih =>
      intro hl
      have ha := hl a (List.mem_cons_self a l)
      have hr := ih (fun y hy => hl y (List.mem_cons_of_mem a hy))
      simp only [List.map_cons, List.sum_cons, List.length_cons, Nat.succ_mul]
      omega
  have h8 := gen window hf
  rw [window_length] at h8
  exact h8

/-- The double sum over the window of values below 256 is at most
`64 * 255 = 16320`. -/
theorem window_sum_le (f : Int → Int → Nat) (hf : ∀ x y, f x y < 256) :
    (window.map fun x => (window.map fun y => f x y).sum).sum ≤ 16320 := by
  have h := window_map_sum_le (fun x => (window.map fun y => f x y).sum) 2040
    (fun x _ => by
      have h1 := window_map_sum_le (fun y => f x y) 255
        (fun y _ => by show f x y ≤ 255; have := hf x y; omega)
      show (window.map fun y => f x y).sum ≤ 2040
      omega)
  omega

/-- The double sum over the window of a constant `c` is `64 * c`. -/
theorem window_sum_const (f : Int → Int → Nat) (c : Nat)
    (hf : ∀ x ∈ window, ∀ y ∈ window, f x y = c) :
    (window.map fun x => (window.map fun y => f x y).sum).sum = 64 * c := by
  have h := window_map_sum_const (fun x => (window.map fun y => f x y).sum) (8 * c)
    (fun x hx => window_map_sum_const (fun y => f x y) c (fun y hy => hf x hx y hy))
  omega

/-- The accumulation loops of any of the kernels: when every step adds the
three bytes found at `off x y` of a byte buffer, the loops return the plain
sums of those bytes (no addition wraps). -/
theorem window_foldlM_sum (step : UVec3 → Int → Int → Option UVec3) (data : List Nat)
    (off : Int → Int → Nat) (hb : ∀ b ∈ data, b < 256)
    (hstep : ∀ x ∈ window, ∀ y ∈ window, ∀ s : UVec3,
      s.s0 + 255 < UINT_MOD → s.s1 + 255 < UINT_MOD → s.s2 + 255 < UINT_MOD →
      step s x y = some { s0 := s.s0 + data.getD (off x y) 0
                          s1 := s.s1 + data.getD (off x y + 1) 0
                          s2 := s.s2 + data.getD (off x y + 2) 0 }) :
    window.foldlM (fun sum x => window.foldlM (fun acc y => step acc x y) sum) UVec3.zero
      = some { s0 := (window.map fun x => (window.map fun y => data.getD (off x y) 0).sum).sum
               s1 := (window.map fun x =>
                  (window.map fun y => data.getD (off x y + 1) 0).sum).sum
               s2 := (window.map fun x =>
                  (window.map fun y => data.getD (off x y + 2) 0).sum).sum } := by
  have inner : ∀ x ∈ window, ∀ s : UVec3, s.s0 + 2040 < UINT_MOD → s.s1 + 2040 < UINT_MOD →
      s.s2 + 2040 < UINT_MOD →
      window.foldlM (fun acc y => step acc x y) s
        = some { s0 := s.s0 + (window.map fun y => data.getD (off x y) 0).sum
                 s1 := s.s1 + (window.map fun y => data.getD (off x y + 1) 0).sum
                 s2 := s.s2 + (window.map fun y => data.getD (off x y + 2) 0).sum } := by
    intro x hx s h0 h1 h2
    refine foldlM_accumulate (fun acc y => step acc x y)
      (fun y => { s0 := data.getD (off x y) 0
                  s1 := data.getD (off x y + 1) 0
                  s2 := data.getD (off x y + 2) 0 })
      255 window ?_ ?_ s ?_ ?_ ?_
    · intro y hy t t0 t1 t2
      exact hstep x hx y hy t t0 t1 t2
    · intro y _
      have b0 := getD_lt_of_bytes data hb (off x y)
      have b1 := getD_lt_of_bytes data hb (off x y + 1)
      have b2 := getD_lt_of_bytes data hb (off x y + 2)
      refine ⟨?_, ?_, ?_⟩ <;> simp only <;> omega
    all_goals rw [window_length]; omega
  refine (foldlM_accumulate
    (fun sum x => window.foldlM (fun acc y => step acc x y) sum)
    (fun x => { s0 := (window.map fun y => data.getD (off x y) 0).sum
                s1 := (window.map fun y => data.getD (off x y + 1) 0).sum
                s2 := (window.map fun y => data.getD (off x y + 2) 0).sum })
    2040 window ?_ ?_ UVec3.zero ?_ ?_ ?_).trans ?_
  · intro x hx s h0 h1 h2
    exact inner x hx s h0 h1 h2
  · intro x _
    refine ⟨?_, ?_, ?_⟩
    · exact window_map_sum_le (fun y => data.getD (off x y) 0) 255
        (fun y _ => Nat.le_of_lt_succ (getD_lt_of_bytes data hb _))
    · exact window_map_sum_le (fun y => data.getD (off x y + 1) 0) 255
        (fun y _ => Nat.le_of_lt_succ (getD_lt_of_bytes data hb _))
    · exact window_map_sum_le (fun y => data.getD (off x y + 2) 0) 255
        (fun y _ => Nat.le_of_lt_succ (getD_lt_of_bytes data hb _))
  · rw [window_length]; norm_num [UVec3.zero, UINT_MOD]
  · rw [window_length]; norm_num [UVec3.zero, UINT_MOD]
  · rw [window_length]; norm_num [UVec3.zero, UINT_MOD]
  · simp only [UVec3.zero, Nat.zero_add]

/-- One sample of the buffer kernel whose three bytes lie in the buffer adds
them to the accumulator. -/
theorem buffers_blur_sample_of_lt (inp : Buffer2) (id0 id1 : Nat) (s : UVec3) (x y : Int)
    (hb : ∀ b ∈ inp.data, b < 256)
    (hin : Buffers.sampleOffset inp id0 id1 x y + 2 < inp.data.length)
    (h0 : s.s0 + 255 < UINT_MOD) (h1 : s.s1 + 255 < UINT_MOD) (h2 : s.s2 + 255 < UINT_MOD) :
    Buffers.blur_sample inp id0 id1 s x y
      = some { s0 := s.s0 + inp.data.getD (Buffers.sampleOffset inp id0 id1 x y) 0
               s1 := s.s1 + inp.data.getD (Buffers.sampleOffset inp id0 id1 x y + 1) 0
               s2 := s.s2 + inp.data.getD (Buffers.sampleOffset inp id0 id1 x y + 2) 0 } := by
  have b0 := getD_lt_of_bytes inp.data hb (Buffers.sampleOffset inp id0 id1 x y)
  have b1 := getD_lt_of_bytes inp.data hb (Buffers.sampleOffset inp id0 id1 x y + 1)
  have b2 := getD_lt_of_bytes inp.data hb (Buffers.sampleOffset inp id0 id1 x y + 2)
  have hread := readPixel_of_lt inp.data (Buffers.sampleOffset inp id0 id1 x y) hin
  unfold Buffers.sampleOffset at hread
  simp only [Buffers.blur_sample, Buffer2.read, hread, Option.bind_eq_bind, Option.some_bind,
    Pixel.toArray, UVec3.add, Option.pure_def, Option.some.injEq, UVec3.mk.injEq]
  unfold Buffers.sampleOffset at b0 b1 b2
  refine ⟨Nat.mod_eq_of_lt ?_, Nat.mod_eq_of_lt ?_, Nat.mod_eq_of_lt ?_⟩ <;> omega

/-- When all 64 samples of a work item lie in the buffer, the two inner loops
of the buffer kernel return the plain sums of the sampled bytes. -/
theorem buffers_blur_sum_of_inBounds (inp : Buffer2) (id0 id1 : Nat)
    (hb : ∀ b ∈ inp.data, b < 256)
    (hin : ∀ x ∈ window, ∀ y ∈ window,
      Buffers.sampleOffset inp id0 id1 x y + 2 < inp.data.length) :
    Buffers.blur_sum inp id0 id1
      = some { s0 := (window.map fun x => (window.map fun y =>
                  inp.data.getD (Buffers.sampleOffset inp id0 id1 x y) 0).sum).sum
               s1 := (window.map fun x => (window.map fun y =>
                  inp.data.getD (Buffers.sampleOffset inp id0 id1 x y + 1) 0).sum).sum
               s2 := (window.map fun x => (window.map fun y =>
                  inp.data.getD (Buffers.sampleOffset inp id0 id1 x y + 2) 0).sum).sum } := by
  unfold Buffers.blur_sum
  exact window_foldlM_sum (fun acc x y => Buffers.blur_sample inp id0 id1 acc x y) inp.data
    (fun x y => Buffers.sampleOffset inp id0 id1 x y) hb
    (fun x hx y hy s h0 h1 h2 =>
      buffers_blur_sample_of_lt inp id0 id1 s x y hb (hin x hx y hy) h0 h1 h2)

/-- The USM work item computes the pixel the host loop body computes on the
same dimensions and bytes. -/
theorem usm_blur_pixel_eq (dev : DeviceImage) (i j : Nat) :
    Usm.blur_pixel dev i j
      = blur_pixel { mWidth := dev.mWidth, mHeight := dev.mHeight, mData := dev.mData } i j :=
  rfl

theorem getD_decoded (w h : Nat) (f : Nat → Nat) (k : Nat) :
    (Image.decoded w h f).mData.getD k 0 = if k < w * h * 3 then f k else 0 := by
  unfold Image.decoded
  by_cases hk : k < w * h * 3
  · simp [hk, List.getD, List.getElem?_range]
  · simp [hk, List.getD, List.getElem?_eq_none_iff.mpr
      (show ((List.range (w * h * 3)).map f).length ≤ k by simp; omega)]

/-- Component `k` of the triple of window sums, when channel `k` of all 64
samples is `c`. -/
theorem sums_chan_const (data : List Nat) (off : Int → Int → Nat) (k : Fin 3) (c : Nat)
    (hc : ∀ x ∈ window, ∀ y ∈ window, data.getD (off x y + k.val) 0 = c) :
    UVec3.chan
      { s0 := (window.map fun x => (window.map fun y => data.getD (off x y) 0).sum).sum
        s1 := (window.map fun x => (window.map fun y => data.getD (off x y + 1) 0).sum).sum
        s2 := (window.map fun x => (window.map fun y => data.getD (off x y + 2) 0).sum).sum }
      k = 64 * c := by
  obtain ⟨kv, hk⟩ := k
  interval_cases kv
  · simp only [Nat.add_zero] at hc
    simp only [UVec3.chan, if_true]
    exact window_sum_const (fun x y => data.getD (off x y) 0) c hc
  · simp only [UVec3.chan, if_true, one_ne_zero, if_false]
    exact window_sum_const (fun x y => data.getD (off x y + 1) 0) c hc
  · simp only [UVec3.chan, OfNat.ofNat_ne_zero, OfNat.ofNat_ne_one, if_false]
    exact window_sum_const (fun x y => data.getD (off x y + 2) 0) c hc

/-- The channel written for a channel sum of `64 * c`, `c` a byte. -/
theorem chan_fromArray_div (v : UVec3) (k : Fin 3) (c : Nat) (hv : v.chan k = 64 * c)
    (hc : c < 256) :
    (Pixel.fromArray (v.divScalar area)).chan k = 64 * c / 81 ∧
    (Pixel.fromArraySycl (v.divScalar area)).chan k = 64 * c / 81 := by
  have ha : area = 81 := by decide
  have hq : 64 * c / 81 ≤ 255 := by omega
  obtain ⟨kv, hk⟩ := k
  simp only [Pixel.fromArray, Pixel.fromArraySycl, UVec3.divScalar, toByte_clamp, ha]
  interval_cases kv
  · simp only [UVec3.chan, if_true] at hv
    simp only [Pixel.chan, if_true, hv, Nat.min_eq_left hq, and_self]
  · simp only [UVec3.chan, if_true, one_ne_zero, if_false] at hv
    simp only [Pixel.chan, if_true, one_ne_zero, if_false, hv, Nat.min_eq_left hq, and_self]
  · simp only [UVec3.chan, OfNat.ofNat_ne_zero, OfNat.ofNat_ne_one, if_false] at hv
    simp only [Pixel.chan, OfNat.ofNat_ne_zero, OfNat.ofNat_ne_one, if_false, hv,
      Nat.min_eq_left hq, and_self]

theorem neg_four_mem_window : (-4 : Int) ∈ window := by decide

/-- C13: the source kernels divide each channel sum of the 64 samples by
`area = 81`. For every output index of the host `blur_image` whose 64 samples
lie in the buffer and all have the value `c` in channel `k`, the channel sum is
`64 * c` and the channel written is `64 * c / 81` (truncating), which is at
most `c` and less than `c` when `c ≥ 1`. The USM work item computes the same
pixel, and the work items of the buffer kernel of `03_image_blur_buffers.cpp`
write `64 * c / 81` under the same condition on their samples. -/
theorem C13_source_divisor (img : Image) (i j : Nat) (k : Fin 3) (c : Nat)
    (hb : ∀ b ∈ img.mData, b < 256)
    (hin : ∀ x ∈ window, ∀ y ∈ window, sampleOffset img i j x y + 2 < img.mData.length)
    (hc : ∀ x ∈ window, ∀ y ∈ window,
      img.mData.getD (sampleOffset img i j x y + k.val) 0 = c) :
    area = 81 ∧
    (∃ s p, blur_sum img i j = some s ∧ s.chan k = 64 * c ∧
      blur_pixel img i j = some p ∧ p.chan k = 64 * c / 81 ∧
      p.chan k ≤ c ∧ (1 ≤ c → p.chan k < c)) ∧
    Usm.blur_pixel { mWidth := img.mWidth, mHeight := img.mHeight, mData := img.mData } i j
      = blur_pixel img i j ∧
    ∀ (buf : Buffer2) (id0 id1 : Nat), (∀ b ∈ buf.data, b < 256) →
      (∀ x ∈ window, ∀ y ∈ window,
        Buffers.sampleOffset buf id0 id1 x y + 2 < buf.data.length) →
      (∀ x ∈ window, ∀ y ∈ window,
        buf.data.getD (Buffers.sampleOffset buf id0 id1 x y + k.val) 0 = c) →
      ∃ q, Buffers.blur_pixel buf id0 id1 = some q ∧ q.chan k = 64 * c / 81 := by
  have hc256 : c < 256 := by
    rw [← hc (-4) neg_four_mem_window (-4) neg_four_mem_window]
    exact getD_lt_of_bytes img.mData hb _
  refine ⟨by decide, ?_, usm_blur_pixel_eq _ i j, ?_⟩
  · have hsum := blur_sum_of_inBounds img i j hb hin
    have hk := sums_chan_const img.mData (fun x y => sampleOffset img i j x y) k c hc
    obtain ⟨hp, _⟩ := chan_fromArray_div _ k c hk hc256
    refine ⟨_, _, hsum, hk, ?_, hp, ?_, ?_⟩
    · rw [blur_pixel, hsum]; rfl
    · rw [hp]; omega
    · intro h1; rw [hp]; omega
  · intro buf id0 id1 hb' hin' hc'
    have hsum := buffers_blur_sum_of_inBounds buf id0 id1 hb' hin'
    have hk := sums_chan_const buf.data (fun x y => Buffers.sampleOffset buf id0 id1 x y) k c hc'
    obtain ⟨_, hq⟩ := chan_fromArray_div _ k c hk hc256
    refine ⟨_, ?_, hq⟩
    rw [Buffers.blur_pixel, hsum]; rfl

theorem solid16_length : (solid 16 16 200 100 50).mData.length = 768 := by
  simp [solid, Image.decoded]

theorem solid16_bytes : ∀ b ∈ (solid 16 16 200 100 50).mData, b < 256 :=
  decoded_bytes_lt 16 16 _ (fun k => by
    show (if _ then _ else if _ then _ else _) < 256
    split_ifs <;> decide)

set_option maxRecDepth 100000 in
theorem solid16_inBounds : ∀ x ∈ window, ∀ y ∈ window,
    sampleOffset (solid 16 16 200 100 50) 8 8 x y + 2 < (solid 16 16 200 100 50).mData.length := by
  rw [solid16_length]
  decide!

set_option maxRecDepth 100000 in
theorem solid16_red : ∀ x ∈ window, ∀ y ∈ window,
    (solid 16 16 200 100 50).mData.getD
      (sampleOffset (solid 16 16 200 100 50) 8 8 x y + (0 : Fin 3).val) 0 = 200 := by
  simp only [solid, getD_decoded]
  decide!

/-- C13 on the solid 16x16 image `(200, 100, 50)` at output `(8, 8)`, red
channel: the kernel writes `64 * 200 / 81 = 158`, less than 200. -/
theorem C13_source_divisor_witness :
    ((∀ b ∈ (solid 16 16 200 100 50).mData, b < 256) ∧
      (∀ x ∈ window, ∀ y ∈ window,
        sampleOffset (solid 16 16 200 100 50) 8 8 x y + 2
          < (solid 16 16 200 100 50).mData.length) ∧
      (∀ x ∈ window, ∀ y ∈ window,
        (solid 16 16 200 100 50).mData.getD
          (sampleOffset (solid 16 16 200 100 50) 8 8 x y + (0 : Fin 3).val) 0 = 200)) ∧
    ∃ p, blur_pixel (solid 16 16 200 100 50) 8 8 = some p ∧ p.chan 0 = 158 ∧
      p.chan 0 < 200 := by
  refine ⟨⟨solid16_bytes, solid16_inBounds, solid16_red⟩, ?_⟩
  obtain ⟨_, p, _, _, hp, hval, _, hlt⟩ :=
    (C13_source_divisor (solid 16 16 200 100 50) 8 8 0 200 solid16_bytes solid16_inBounds
      solid16_red).2.1
  exact ⟨p, hp, hval.trans (by decide), hlt (by decide)⟩

/-- The quotients of channel sums of at most 16320: at most 201 with the
divisor `area`, at most 255 with the divisor 64, and unchanged by the clamp of
`Pixel::fromArray`. -/
theorem quotient_bounds (v : UVec3) (v0 : v.s0 ≤ 16320) (v1 : v.s1 ≤ 16320)
    (v2 : v.s2 ≤ 16320) :
    (v.s0 / area ≤ 201 ∧ v.s1 / area ≤ 201 ∧ v.s2 / area ≤ 201) ∧
    (v.s0 / spec_AREA ≤ 255 ∧ v.s1 / spec_AREA ≤ 255 ∧ v.s2 / spec_AREA ≤ 255) ∧
    Pixel.fromArray (v.divScalar area)
      = { r := v.s0 / area, g := v.s1 / area, b := v.s2 / area } := by
  have ha : area = 81 := by decide
  have hs : spec_AREA = 64 := by decide
  rw [ha, hs]
  refine ⟨⟨?_, ?_, ?_⟩, ⟨?_, ?_, ?_⟩, ?_⟩
  · omega
  · omega
  · omega
  · omega
  · omega
  · omega
  · simp only [Pixel.fromArray, UVec3.divScalar, toByte_clamp, Pixel.mk.injEq]
    refine ⟨Nat.min_eq_left ?_, Nat.min_eq_left ?_, Nat.min_eq_left ?_⟩ <;> omega

/-- C14: for every output index of the host `blur_image` whose 64 samples lie
in the buffer, the `unsigned int` accumulator holds the plain sums of the
sampled bytes (no addition wraps): each channel sum is at most
`64 * 255 = 16320`, far below `2 ^ 32`; the quotient passed to the `Pixel`
constructor is at most 201 with the source's divisor `area` (and would be at
most 255 with the divisor 64), so the clamp of `Pixel::fromArray` leaves it
unchanged and the pixel written consists of the three quotients. -/
theorem C14_no_overflow_no_saturation (img : Image) (i j : Nat)
    (hb : ∀ b ∈ img.mData, b < 256)
    (hin : ∀ x ∈ window, ∀ y ∈ window, sampleOffset img i j x y + 2 < img.mData.length) :
    ∃ s, blur_sum img i j = some s ∧
      s = { s0 := (window.map fun x =>
                (window.map fun y => img.mData.getD (sampleOffset img i j x y) 0).sum).sum
            s1 := (window.map fun x =>
                (window.map fun y => img.mData.getD (sampleOffset img i j x y + 1) 0).sum).sum
            s2 := (window.map fun x =>
                (window.map fun y => img.mData.getD (sampleOffset img i j x y + 2) 0).sum).sum } ∧
      (s.s0 ≤ 16320 ∧ s.s1 ≤ 16320 ∧ s.s2 ≤ 16320) ∧ 16320 < UINT_MOD ∧
      (s.s0 / area ≤ 201 ∧ s.s1 / area ≤ 201 ∧ s.s2 / area ≤ 201) ∧
      (s.s0 / spec_AREA ≤ 255 ∧ s.s1 / spec_AREA ≤ 255 ∧ s.s2 / spec_AREA ≤ 255) ∧
      Pixel.fromArray (s.divScalar area)
        = { r := s.s0 / area, g := s.s1 / area, b := s.s2 / area } ∧
      blur_pixel img i j = some { r := s.s0 / area, g := s.s1 / area, b := s.s2 / area } := by
  have hsum := blur_sum_of_inBounds img i j hb hin
  have l0 := window_sum_le (fun x y => img.mData.getD (sampleOffset img i j x y) 0)
    (fun x y => getD_lt_of_bytes img.mData hb _)
  have l1 := window_sum_le (fun x y => img.mData.getD (sampleOffset img i j x y + 1) 0)
    (fun x y => getD_lt_of_bytes img.mData hb _)
  have l2 := window_sum_le (fun x y => img.mData.getD (sampleOffset img i j x y + 2) 0)
    (fun x y => getD_lt_of_bytes img.mData hb _)
  beta_reduce at l0 l1 l2
  have hM : 16320 < UINT_MOD := by norm_num [UINT_MOD]
  obtain ⟨q81, q64, hfrom⟩ := quotient_bounds
    { s0 := (window.map fun x =>
          (window.map fun y => img.mData.getD (sampleOffset img i j x y) 0).sum).sum
      s1 := (window.map fun x =>
          (window.map fun y => img.mData.getD (sampleOffset img i j x y + 1) 0).sum).sum
      s2 := (window.map fun x =>
          (window.map fun y => img.mData.getD (sampleOffset img i j x y + 2) 0).sum).sum }
    l0 l1 l2
  refine ⟨_, hsum, rfl, ⟨l0, l1, l2⟩, hM, q81, q64, hfrom, ?_⟩
  rw [blur_pixel, hsum, Option.map_some', hfrom]

theorem split16_length : split16.mData.length = 768 := by
  simp [split16, Image.decoded]

set_option maxRecDepth 100000 in
theorem split16_inBounds : ∀ x ∈ window, ∀ y ∈ window,
    sampleOffset split16 4 7 x y + 2 < split16.mData.length := by
  rw [split16_length]
  decide!

theorem split16_bytes : ∀ b ∈ split16.mData, b < 256 :=
  decoded_bytes_lt 16 16 _ (fun k => by show (if _ then _ else _) < 256; split <;> decide)

/-- C14 on the 16x16 split image at `(row 4, col 7)`: the sums exist, are at
most 16320 and the pixel written consists of the three quotients. -/
theorem C14_no_overflow_no_saturation_witness :
    ((∀ b ∈ split16.mData, b < 256) ∧
      (∀ x ∈ window, ∀ y ∈ window,
        sampleOffset split16 4 7 x y + 2 < split16.mData.length)) ∧
    ∃ s, blur_sum split16 4 7 = some s ∧
      (s.s0 ≤ 16320 ∧ s.s1 ≤ 16320 ∧ s.s2 ≤ 16320) ∧
      blur_pixel split16 4 7 = some { r := s.s0 / area, g := s.s1 / area, b := s.s2 / area } := by
  refine ⟨⟨split16_bytes, split16_inBounds⟩, ?_⟩
  obtain ⟨s, hs, _, hle, _, _, _, _, hp⟩ :=
    C14_no_overflow_no_saturation split16 4 7 split16_bytes split16_inBounds
  exact ⟨s, hs, hle, hp⟩

/-! ## C12: the self-check of the vector addition -/

theorem iota_getElem (n : Nat) (v : Int) (i : Nat) (hi : i < n) :
    (VectorAdd.iota n v)[i]? = some (v + (i : Int)) := by
  simp only [VectorAdd.iota, List.getElem?_map, List.getElem?_range hi, Option.map_some']

/-- The kernel's work items `0 .. k - 1` succeed when every pair of operands
exists and adds without overflow; they store `f i` at index `i` and leave the
other elements of the result vector unchanged. -/
theorem kernel_range (a b : List Int) (f : Nat → Int) (n : Nat)
    (hf : ∀ i < n, ∃ x y, a[i]? = some x ∧ b[i]? = some y ∧ VectorAdd.addInt x y = some (f i)) :
    ∀ k, k ≤ n → ∀ r : List Int, r.length = n →
      ∃ t, (List.range k).foldlM (fun r i => VectorAdd.kernel_item a b r i) r = some t ∧
        t.length = n ∧ ∀ i, t[i]? = if i < k then some (f i) else r[i]?
  | 0, _, r, hr => ⟨r, by simp, hr, fun i => by simp⟩
  | k + 1, hk, r, hr => by
    obtain ⟨t, ht, hlen, hget⟩ := kernel_range a b f n hf k (by omega) r hr
    obtain ⟨x, y, hx, hy, hxy⟩ := hf k (by omega)
    have hkt : k < t.length := by omega
    refine ⟨t.set k (f k), ?_, by simp [hlen], ?_⟩
    · rw [List.range_succ, List.foldlM_append, ht]
      simp [VectorAdd.kernel_item, hx, hy, hxy, hkt]
    · intro i
      rw [List.getElem?_set]
      by_cases hik : k = i
      · subst hik
        simp [hkt]
      · simp only [hik, if_false, hget i]
        by_cases h1 : i < k
        · simp [h1, Nat.lt_succ_of_lt h1]
        · have h2 : ¬ i < k + 1 := by omega
          simp [h1, h2]

/-- The verification loop reports success when every checked element equals
the sum of its operands. -/
theorem verify_correct (a b r : List Int) (f : Nat → Int) :
    ∀ l : List Nat,
      (∀ i ∈ l, ∃ x y, a[i]? = some x ∧ b[i]? = some y ∧
        VectorAdd.addInt x y = some (f i) ∧ r[i]? = some (f i)) →
      VectorAdd.verify a b r l = some VectorAdd.Outcome.correct
  | [], _ => rfl
  | i :: rest, h => by
    obtain ⟨x, y, hx, hy, hxy, hr⟩ := h i (List.mem_cons_self i rest)
    have ih := verify_correct a b r f rest (fun j hj => h j (List.mem_cons_of_mem i hj))
    simp [VectorAdd.verify, hx, hy, hxy, hr, ih]

theorem addInt_double (i : Nat) (hi : i < VectorAdd.size) :
    VectorAdd.addInt (1 + (i : Int)) (1 + (i : Int)) = some (2 * ((i : Int) + 1)) := by
  have hs : VectorAdd.size = 10000 := rfl
  have h1 : VectorAdd.INT_MIN = -2147483648 := by norm_num [VectorAdd.INT_MIN]
  have h2 : VectorAdd.INT_MAX = 2147483647 := by norm_num [VectorAdd.INT_MAX]
  unfold VectorAdd.addInt
  rw [h1, h2, if_pos (by omega)]
  congr 1
  ring

/-- C12: in `05_vector_add_buffers.cpp`, with `a_vec = b_vec = (1, ..., 10000)`,
the kernel returns a result vector of 10000 elements in which every index `i`
holds `a_vec[i] + b_vec[i] = 2 * (i + 1)`, computed without `int` overflow; the
verification loop never takes the error branch, and `main` ends with
`Results correct!` and exit status 0. -/
theorem C12_vector_add_self_check :
    ∃ r, VectorAdd.kernel (VectorAdd.iota VectorAdd.size 1) (VectorAdd.iota VectorAdd.size 1)
          (List.replicate VectorAdd.size 0) VectorAdd.size = some r ∧
      r.length = 10000 ∧
      (∀ i : Nat, i < 10000 →
        (VectorAdd.iota VectorAdd.size 1)[i]? = some ((i : Int) + 1) ∧
        VectorAdd.addInt ((i : Int) + 1) ((i : Int) + 1) = some (2 * ((i : Int) + 1)) ∧
        r[i]? = some (2 * ((i : Int) + 1))) ∧
      VectorAdd.main = some VectorAdd.Outcome.correct ∧
      VectorAdd.Outcome.correct.exitCode = 0 := by
  have hs : VectorAdd.size = 10000 := rfl
  have hops : ∀ i < VectorAdd.size, ∃ x y,
      (VectorAdd.iota VectorAdd.size 1)[i]? = some x ∧
      (VectorAdd.iota VectorAdd.size 1)[i]? = some y ∧
      VectorAdd.addInt x y = some (2 * ((i : Int) + 1)) := fun i hi =>
    ⟨_, _, iota_getElem _ 1 i hi, iota_getElem _ 1 i hi, addInt_double i hi⟩
  obtain ⟨r, hr, hlen, hget⟩ := kernel_range (VectorAdd.iota VectorAdd.size 1)
    (VectorAdd.iota VectorAdd.size 1) (fun i => 2 * ((i : Int) + 1)) VectorAdd.size hops
    VectorAdd.size (Nat.le_refl _) (List.replicate VectorAdd.size 0) (by simp)
  have hres : ∀ i, i < VectorAdd.size → r[i]? = some (2 * ((i : Int) + 1)) := by
    intro i hi
    rw [hget i, if_pos hi]
  refine ⟨r, hr, hlen.trans hs, ?_, ?_, rfl⟩
  · intro i hi
    have hi' : i < VectorAdd.size := by rw [hs]; exact hi
    refine ⟨?_, ?_, hres i hi'⟩
    · rw [iota_getElem _ 1 i hi', Int.add_comm]
    · have h := addInt_double i hi'
      rw [show (1 : Int) + (i : Int) = (i : Int) + 1 by ring] at h
      exact h
  · have hv := verify_correct (VectorAdd.iota VectorAdd.size 1) (VectorAdd.iota VectorAdd.size 1)
      r (fun i => 2 * ((i : Int) + 1)) (List.range VectorAdd.size)
      (fun i hi => by
        rw [List.mem_range] at hi
        obtain ⟨x, y, hx, hy, hxy⟩ := hops i hi
        exact ⟨x, y, hx, hy, hxy, hres i hi⟩)
    unfold VectorAdd.main VectorAdd.kernel at *
    simp only [hr, Option.bind_eq_bind, Option.some_bind, hv]

end Blur
